import Mathlib

/-!
Verification of the CivicView hotspot engine (`src/civicview/tasks.py`).

The repository's `generate_hotspots` Celery task reads all report points,
clusters them with DBSCAN (eps = 0.01, min_samples = 2), deletes all stored
hotspots, groups the points by cluster label (skipping noise, label -1),
and creates one hotspot polygon per cluster via `_as_polygon` (convex hull
for three or more points, axis-aligned bounding box otherwise, with a
bounding-box fallback when the hull degenerates).

Coordinates are embedded as pairs of rationals; the source works with
Python floats, and all comparisons performed by the algorithms
(distance thresholds, min/max, orientation signs) are exact field
operations, so ℚ is a faithful carrier for them.

The clustering routine (scikit-learn's DBSCAN) and the convex hull
(shapely's `convex_hull`) are third-party code not present in the
repository; they are modelled from the specification (sections 4.1 and
4.2 of spec.md), which fixes DBSCAN density-reachability semantics with
ascending-index traversal and a standard monotone-chain convex hull with
counter-clockwise output.
-/

namespace CivicView

/-- A 2-D point: (x, y) = (longitude, latitude). -/
abbrev Pt : Type := ℚ × ℚ

/-- Twice the signed area of triangle (o, a, b); positive iff the triple
is a counter-clockwise (left) turn. -/
def cross (o a b : Pt) : ℚ :=
  (a.1 - o.1) * (b.2 - o.2) - (a.2 - o.2) * (b.1 - o.1)

/-- Strict lexicographic order on points (x first, then y). -/
def lexLt (p q : Pt) : Prop := p.1 < q.1 ∨ (p.1 = q.1 ∧ p.2 < q.2)

/-- Non-strict lexicographic order on points. -/
def lexLe (p q : Pt) : Prop := p.1 < q.1 ∨ (p.1 = q.1 ∧ p.2 ≤ q.2)

instance (p q : Pt) : Decidable (lexLt p q) := by unfold lexLt; infer_instance

instance (p q : Pt) : Decidable (lexLe p q) := by unfold lexLe; infer_instance

theorem lexLt_irrefl (p : Pt) : ¬ lexLt p p := by
  simp [lexLt]

theorem lexLt_trans {p q r : Pt} (h₁ : lexLt p q) (h₂ : lexLt q r) : lexLt p r := by
  rcases h₁ with h₁ | ⟨e₁, h₁⟩ <;> rcases h₂ with h₂ | ⟨e₂, h₂⟩
  · exact Or.inl (lt_trans h₁ h₂)
  · exact Or.inl (e₂ ▸ h₁)
  · exact Or.inl (e₁ ▸ h₂)
  · exact Or.inr ⟨e₁.trans e₂, lt_trans h₁ h₂⟩

theorem lexLt.le {p q : Pt} (h : lexLt p q) : lexLe p q := by
  rcases h with h | ⟨e, h⟩
  · exact Or.inl h
  · exact Or.inr ⟨e, le_of_lt h⟩

theorem lexLe_refl (p : Pt) : lexLe p p := Or.inr ⟨rfl, le_refl _⟩

theorem lexLe_trans {p q r : Pt} (h₁ : lexLe p q) (h₂ : lexLe q r) : lexLe p r := by
  rcases h₁ with h₁ | ⟨e₁, h₁⟩ <;> rcases h₂ with h₂ | ⟨e₂, h₂⟩
  · exact Or.inl (lt_trans h₁ h₂)
  · exact Or.inl (e₂ ▸ h₁)
  · exact Or.inl (e₁ ▸ h₂)
  · exact Or.inr ⟨e₁.trans e₂, le_trans h₁ h₂⟩

theorem lexLt_of_lt_of_le {p q r : Pt} (h₁ : lexLt p q) (h₂ : lexLe q r) : lexLt p r := by
  rcases h₁ with h₁ | ⟨e₁, h₁⟩ <;> rcases h₂ with h₂ | ⟨e₂, h₂⟩
  · exact Or.inl (lt_trans h₁ h₂)
  · exact Or.inl (e₂ ▸ h₁)
  · exact Or.inl (e₁ ▸ h₂)
  · exact Or.inr ⟨e₁.trans e₂, lt_of_lt_of_le h₁ h₂⟩

theorem lexLt_of_le_of_lt {p q r : Pt} (h₁ : lexLe p q) (h₂ : lexLt q r) : lexLt p r := by
  rcases h₁ with h₁ | ⟨e₁, h₁⟩ <;> rcases h₂ with h₂ | ⟨e₂, h₂⟩
  · exact Or.inl (lt_trans h₁ h₂)
  · exact Or.inl (e₂ ▸ h₁)
  · exact Or.inl (e₁ ▸ h₂)
  · exact Or.inr ⟨e₁.trans e₂, lt_of_le_of_lt h₁ h₂⟩

theorem lexLe_total (p q : Pt) : lexLe p q ∨ lexLe q p := by
  rcases lt_trichotomy p.1 q.1 with h | h | h
  · exact Or.inl (Or.inl h)
  · rcases le_total p.2 q.2 with h₂ | h₂
    · exact Or.inl (Or.inr ⟨h, h₂⟩)
    · exact Or.inr (Or.inr ⟨h.symm, h₂⟩)
  · exact Or.inr (Or.inl h)

theorem lexLe_antisymm {p q : Pt} (h₁ : lexLe p q) (h₂ : lexLe q p) : p = q := by
  rcases h₁ with h₁ | ⟨e₁, h₁⟩ <;> rcases h₂ with h₂ | ⟨e₂, h₂⟩
  · exact absurd (lt_trans h₁ h₂) (lt_irrefl _)
  · exact absurd h₁ (e₂ ▸ lt_irrefl _)
  · exact absurd h₂ (e₁ ▸ lt_irrefl _)
  · exact Prod.ext e₁ (le_antisymm h₁ h₂)

theorem lexLt_of_le_of_ne {p q : Pt} (h : lexLe p q) (hne : p ≠ q) : lexLt p q := by
  rcases h with h | ⟨e, h⟩
  · exact Or.inl h
  · rcases lt_or_eq_of_le h with h' | h'
    · exact Or.inr ⟨e, h'⟩
    · exact absurd (Prod.ext e h') hne

theorem lexLe.x_le {p q : Pt} (h : lexLe p q) : p.1 ≤ q.1 := by
  rcases h with h | ⟨e, _⟩
  · exact le_of_lt h
  · exact le_of_eq e

instance : IsTotal Pt lexLe := ⟨lexLe_total⟩

instance : IsTrans Pt lexLe := ⟨fun _ _ _ => lexLe_trans⟩

theorem cross_self_right (o a : Pt) : cross o a a = 0 := by
  unfold cross; ring

theorem cross_swap (o a b : Pt) : cross o b a = - cross o a b := by
  unfold cross; ring

/-- Propagating a supporting half-plane one edge up a convex, lexicographically
increasing chain: if `q` (with `q ≼ b`) is on or left of edge `(a, b)` and the
chain turns left at `b` towards `c`, then `q` is on or left of edge `(b, c)`. -/
theorem cross_step_up {a b c q : Pt} (hab : lexLt a b) (hbc : lexLt b c)
    (hqb : lexLe q b) (hturn : 0 < cross a b c) (hq : 0 ≤ cross a b q) :
    0 ≤ cross b c q := by
  rcases eq_or_lt_of_le hab.le.x_le with hx | hx
  · -- vertical edge (a, b) would force the turn to be non-left
    exfalso
    have h1 : a.2 < b.2 := by
      rcases hab with h | ⟨e, h⟩
      · exact absurd hx (ne_of_lt h)
      · exact h
    have h2 : a.1 ≤ c.1 := le_trans (le_of_eq hx) hbc.le.x_le
    have : cross a b c = - (b.2 - a.2) * (c.1 - a.1) := by
      unfold cross; rw [← hx]; ring
    nlinarith
  · rcases eq_or_lt_of_le hbc.le.x_le with hx2 | hx2
    · -- vertical edge (b, c): q is on its left since q.1 ≤ b.1
      have h1 : b.2 < c.2 := by
        rcases hbc with h | ⟨e, h⟩
        · exact absurd hx2 (ne_of_lt h)
        · exact h
      have h2 : q.1 ≤ b.1 := hqb.x_le
      have : cross b c q = (c.2 - b.2) * (b.1 - q.1) := by
        unfold cross; rw [← hx2]; ring
      rw [this]
      exact mul_nonneg (by linarith) (by linarith)
    · have hid : cross b c q * (b.1 - a.1) =
          cross a b c * (b.1 - q.1) + cross a b q * (c.1 - b.1) := by
        unfold cross; ring
      have h1 : 0 ≤ cross a b c * (b.1 - q.1) :=
        mul_nonneg (le_of_lt hturn) (by have := hqb.x_le; linarith)
      have h2 : 0 ≤ cross a b q * (c.1 - b.1) := mul_nonneg hq (by linarith)
      nlinarith

/-- Propagating a supporting half-plane one edge down a convex chain:
if `q` (with `b ≼ q`) is on or left of edge `(b, c)` and the chain turns left
at `b`, then `q` is on or left of edge `(a, b)`. -/
theorem cross_step_down {a b c q : Pt} (hab : lexLt a b) (hbc : lexLt b c)
    (hbq : lexLe b q) (hturn : 0 < cross a b c) (hq : 0 ≤ cross b c q) :
    0 ≤ cross a b q := by
  rcases eq_or_lt_of_le hbc.le.x_le with hx | hx
  · -- vertical edge (b, c): the hypotheses pin q to the same vertical line
    have h1 : b.2 < c.2 := by
      rcases hbc with h | ⟨e, h⟩
      · exact absurd hx (ne_of_lt h)
      · exact h
    have hc : cross a b c = (b.1 - a.1) * (c.2 - b.2) := by
      unfold cross; rw [← hx]; ring
    have hax : a.1 < b.1 := by nlinarith [hc ▸ hturn]
    have hq' : cross b c q = (c.2 - b.2) * (b.1 - q.1) := by
      unfold cross; rw [← hx]; ring
    have hqx : q.1 = b.1 := by
      have h2 : b.1 ≤ q.1 := hbq.x_le
      nlinarith [hq' ▸ hq]
    have hqy : b.2 ≤ q.2 := by
      rcases hbq with h | ⟨e, h⟩
      · exact absurd hqx (ne_of_gt h)
      · exact h
    have : cross a b q = (b.1 - a.1) * (q.2 - b.2) := by
      unfold cross; rw [← hqx]; ring
    rw [this]
    exact mul_nonneg (by linarith) (by linarith)
  · rcases eq_or_lt_of_le hab.le.x_le with hx2 | hx2
    · exfalso
      have h1 : a.2 < b.2 := by
        rcases hab with h | ⟨e, h⟩
        · exact absurd hx2 (ne_of_lt h)
        · exact h
      have : cross a b c = - (b.2 - a.2) * (c.1 - a.1) := by
        unfold cross; rw [← hx2]; ring
      nlinarith
    · have hid : cross a b q * (c.1 - b.1) =
          cross a b c * (q.1 - b.1) + cross b c q * (b.1 - a.1) := by
        unfold cross; ring
      have h1 : 0 ≤ cross a b c * (q.1 - b.1) :=
        mul_nonneg (le_of_lt hturn) (by have := hbq.x_le; linarith)
      have h2 : 0 ≤ cross b c q * (b.1 - a.1) := mul_nonneg hq (by linarith)
      nlinarith

/-- Slot merge under a pop: when the incoming point `p` makes edge `(a, b)`
a non-left turn, any `q` between `a` and `b` that was on or above edge
`(a, b)` is on or above the replacement edge `(a, p)`. -/
theorem cross_pop_slot {a b p q : Pt} (hab : lexLt a b) (hbp : lexLt b p)
    (haq : lexLe a q) (hqb : lexLe q b) (hpop : cross a b p ≤ 0)
    (hq : 0 ≤ cross a b q) : 0 ≤ cross a p q := by
  rcases eq_or_lt_of_le hab.le.x_le with hx | hx
  · -- vertical edge (a, b): q shares its x-coordinate
    have hqx : q.1 = a.1 := le_antisymm (hx ▸ hqb.x_le) haq.x_le
    have hqy : a.2 ≤ q.2 := by
      rcases haq with h | ⟨e, h⟩
      · exact absurd hqx.symm (ne_of_lt h)
      · exact h
    have hpx : a.1 ≤ p.1 := le_trans (le_of_eq hx) hbp.le.x_le
    have : cross a p q = (p.1 - a.1) * (q.2 - a.2) := by
      unfold cross; rw [← hqx]; ring
    rw [this]
    exact mul_nonneg (by linarith) (by linarith)
  · have hid : cross a p q * (b.1 - a.1) =
        cross a b q * (p.1 - a.1) - cross a b p * (q.1 - a.1) := by
      unfold cross; ring
    have h1 : 0 ≤ cross a b q * (p.1 - a.1) :=
      mul_nonneg hq (by have := lexLt_trans hab hbp; have := this.le.x_le; linarith)
    have h2 : 0 ≤ - (cross a b p * (q.1 - a.1)) := by
      have := haq.x_le
      have : 0 ≤ q.1 - a.1 := by linarith
      nlinarith
    nlinarith

theorem cross_self_outer (a b : Pt) : cross a b a = 0 := by
  unfold cross; ring

/-- Cap transfer under a pop: when the incoming point `p` pops `b` off the
stack (edge `(a, b)` turned non-left), any `q` above the provisional cap edge
`(b, p)` is above the new provisional cap edge `(a, p)`. -/
theorem cross_pop_cap {a b p q : Pt} (hab : lexLt a b) (hbp : lexLt b p)
    (hbq : lexLe b q) (hqp : lexLt q p) (hpop : cross a b p ≤ 0)
    (hq : 0 ≤ cross b p q) : 0 ≤ cross a p q := by
  rcases eq_or_lt_of_le hbp.le.x_le with hx | hx
  · -- vertical cap (b, p): the pop condition forces everything vertical
    have h1 : b.2 < p.2 := by
      rcases hbp with h | ⟨e, h⟩
      · exact absurd hx (ne_of_lt h)
      · exact h
    have hc : cross a b p = (b.1 - a.1) * (p.2 - b.2) := by
      unfold cross; rw [← hx]; ring
    have hax : b.1 ≤ a.1 := by nlinarith [hc ▸ hpop]
    have hax' : a.1 = b.1 := le_antisymm hab.le.x_le hax
    have hqx : q.1 = b.1 := le_antisymm (hx ▸ hqp.le.x_le) hbq.x_le
    have : cross a p q = 0 := by
      unfold cross
      rw [show p.1 = a.1 by rw [hax']; exact hx.symm, show q.1 = a.1 by rw [hax']; exact hqx]
      ring
    rw [this]
  · have hid : cross a p q * (p.1 - b.1) =
        (- cross a b p) * (p.1 - q.1) + cross b p q * (p.1 - a.1) := by
      unfold cross; ring
    have h1 : 0 ≤ (- cross a b p) * (p.1 - q.1) :=
      mul_nonneg (by linarith) (by have := hqp.le.x_le; linarith)
    have h2 : 0 ≤ cross b p q * (p.1 - a.1) :=
      mul_nonneg hq (by have := (lexLt_trans hab hbp).le.x_le; linarith)
    nlinarith

/-! ### The monotone-chain half-hull

Modelled from the spec: the repository delegates convex-hull computation to
shapely's `convex_hull` (third-party, not in the repository); spec.md section
4.2 prescribes a standard hull algorithm (monotone chain) with
counter-clockwise output and closed ring.  `keep` is the pop loop of one
monotone-chain step, `chainD` the whole half-hull, kept as a stack whose head
is the most recently pushed (lexicographically largest) point. -/

/-- Modelled from the spec: pop loop of a monotone-chain step (section 4.2's
hull algorithm, standing in for shapely), repeatedly dropping the stack top
`b` while the turn `(a, b, p)` (with `a` below `b`) is not a strict left
turn. -/
def keep (p : Pt) : List Pt → List Pt
  | [] => []
  | [a] => [a]
  | b :: a :: rest => if cross a b p ≤ 0 then keep p (a :: rest) else b :: a :: rest

/-- One monotone-chain step: pop non-left turns, then push the new point. -/
def chainStep (s : List Pt) (p : Pt) : List Pt := p :: keep p s

/-- Modelled from the spec: the monotone-chain half-hull of `L` (descending
stack, head = last point), section 4.2's hull algorithm. -/
def chainD (L : List Pt) : List Pt := L.foldl chainStep []

/-- Strict convexity of the descending stack: every consecutive triple,
read bottom-up, is a strict left turn. -/
def ConvexDesc : List Pt → Prop
  | c :: b :: a :: t => 0 < cross a b c ∧ ConvexDesc (b :: a :: t)
  | _ => True

/-- `q` is supported by some stack edge whose lexicographic span contains it
(stack edges are pairs (upper, lower) of adjacent stack entries). -/
def edgeSlot (s : List Pt) (q : Pt) : Prop :=
  ∃ e ∈ s.zip s.tail, lexLe e.2 q ∧ lexLe q e.1 ∧ 0 ≤ cross e.2 e.1 q

/-- `q` is supported by the provisional cap edge from the stack top to the
incoming point `p`. -/
def capFact (p : Pt) (s : List Pt) (q : Pt) : Prop :=
  ∃ h, s.head? = some h ∧ lexLe h q ∧ 0 ≤ cross h p q

/-- Every processed point is supported by a stack edge (or the stack is the
lone processed point). -/
def slotFact (s : List Pt) (q : Pt) : Prop := edgeSlot s q ∨ s = [q]

theorem convexDesc_tail {x : Pt} {s : List Pt} (h : ConvexDesc (x :: s)) :
    ConvexDesc s := by
  match s with
  | [] => trivial
  | [a] => trivial
  | b :: a :: t => exact h.2

theorem keep_ne_nil {p : Pt} {s : List Pt} (h : s ≠ []) : keep p s ≠ [] := by
  induction s with
  | nil => exact absurd rfl h
  | cons b t ih =>
    match t with
    | [] => simp [keep]
    | a :: rest =>
      rw [keep]
      split
      · exact ih (by simp)
      · simp

theorem keep_subset {p : Pt} {s : List Pt} : ∀ x ∈ keep p s, x ∈ s := by
  induction s with
  | nil => simp [keep]
  | cons b t ih =>
    match t with
    | [] => simp [keep]
    | a :: rest =>
      rw [keep]
      split
      · exact fun x hx => List.mem_cons_of_mem _ (ih x hx)
      · exact fun x hx => hx

theorem keep_getLast? {p : Pt} {s : List Pt} : (keep p s).getLast? = s.getLast? := by
  induction s with
  | nil => rfl
  | cons b t ih =>
    match t with
    | [] => rfl
    | a :: rest =>
      rw [keep]
      split
      · rw [ih, List.getLast?_cons_cons]
      · rfl

theorem keep_chain' {p : Pt} {s : List Pt} {R : Pt → Pt → Prop}
    (h : List.Chain' R s) : List.Chain' R (keep p s) := by
  induction s with
  | nil => exact h
  | cons b t ih =>
    match t with
    | [] => exact h
    | a :: rest =>
      rw [keep]
      split
      · exact ih h.tail
      · exact h

theorem keep_convex {p : Pt} {s : List Pt} (h : ConvexDesc s) :
    ConvexDesc (keep p s) := by
  induction s with
  | nil => exact h
  | cons b t ih =>
    match t with
    | [] => exact h
    | a :: rest =>
      rw [keep]
      split
      · exact ih (convexDesc_tail h)
      · exact h

theorem keep_stop {p b a : Pt} {s t : List Pt} (h : keep p s = b :: a :: t) :
    0 < cross a b p := by
  induction s with
  | nil => exact absurd h (by simp [keep])
  | cons b' t' ih =>
    match t' with
    | [] => exact absurd h (by simp [keep])
    | a' :: rest =>
      rw [keep] at h
      revert h
      split
      · exact fun h => ih h
      · rename_i hc
        intro h
        injection h with h1 h2
        injection h2 with h2 h3
        subst h1; subst h2
        exact not_le.mp hc

/-- The pop loop preserves slot support: every point supported by an edge of
the stack or by the provisional cap is still supported after popping. -/
theorem keep_cap {p q : Pt} : ∀ {s : List Pt},
    List.Chain' (fun x y => lexLt y x) s →
    (∀ x ∈ s, lexLt x p) →
    lexLt q p →
    (edgeSlot s q ∨ capFact p s q) →
    edgeSlot (keep p s) q ∨ capFact p (keep p s) q := by
  intro s
  induction s with
  | nil => exact fun _ _ _ h => h
  | cons b t ih =>
    match t with
    | [] => exact fun _ _ _ h => h
    | a :: rest =>
      intro hchain hmem hqp hyp
      rw [keep]
      split
      · rename_i hpop
        have hab : lexLt a b := (List.chain'_cons.mp hchain).1
        have hbp : lexLt b p := hmem b (by simp)
        apply ih (List.chain'_cons.mp hchain).2
          (fun x hx => hmem x (List.mem_cons_of_mem _ hx)) hqp
        rcases hyp with ⟨e, he, h1, h2, h3⟩ | ⟨h0, hh, hle, hcr⟩
        · rcases List.mem_cons.mp he with rfl | he'
          · exact Or.inr ⟨a, rfl, h1, cross_pop_slot hab hbp h1 h2 hpop h3⟩
          · exact Or.inl ⟨e, he', h1, h2, h3⟩
        · have hb : h0 = b := by injection hh with hh; exact hh.symm
          subst hb
          exact Or.inr ⟨a, rfl, (lexLt_of_lt_of_le hab hle).le,
            cross_pop_cap hab hbp hle hqp hpop hcr⟩
      · exact hyp

/-- After the push, slot support becomes edge support in the new stack. -/
theorem chainStep_slot {p q : Pt} {s : List Pt} (hqp : lexLe q p)
    (h : edgeSlot (keep p s) q ∨ capFact p (keep p s) q) :
    edgeSlot (chainStep s p) q := by
  unfold chainStep
  rcases h with ⟨e, he, h1, h2, h3⟩ | ⟨h0, hh, hle, hcr⟩
  · match hk : keep p s with
    | [] => rw [hk] at he; simp at he
    | h' :: t' =>
      rw [hk] at he
      exact ⟨e, List.mem_cons_of_mem _ he, h1, h2, h3⟩
  · match hk : keep p s with
    | [] => rw [hk] at hh; simp at hh
    | h' :: t' =>
      rw [hk] at hh
      obtain rfl : h' = h0 := by injection hh
      exact ⟨(p, h'), List.mem_cons_self _ _, hle, hqp, hcr⟩

/-- The pushed point is supported by the edge it creates. -/
theorem chainStep_self_slot {p : Pt} {s : List Pt} (hne : s ≠ [])
    (hsub : ∀ x ∈ s, lexLt x p) : edgeSlot (chainStep s p) p := by
  unfold chainStep
  match hk : keep p s with
  | [] => exact absurd hk (keep_ne_nil hne)
  | h' :: t' =>
    refine ⟨(p, h'), List.mem_cons_self _ _, ?_, lexLe_refl p, ?_⟩
    · exact (hsub h' (keep_subset h' (hk ▸ List.mem_cons_self _ _))).le
    · rw [cross_self_right]

/-- Full invariant of the monotone-chain fold: `done` is the processed prefix
(strictly increasing), `s` the current stack. -/
def Inv (done s : List Pt) : Prop :=
  s ≠ [] ∧
  s.head? = done.getLast? ∧
  s.getLast? = done.head? ∧
  (∀ x ∈ s, x ∈ done) ∧
  List.Chain' (fun x y => lexLt y x) s ∧
  ConvexDesc s ∧
  (∀ q ∈ done, ∀ h, s.head? = some h → lexLe q h) ∧
  (∀ q ∈ done, slotFact s q)

theorem Inv_step {done s : List Pt} {p : Pt} (hI : Inv done s)
    (hp : ∀ q ∈ done, lexLt q p) : Inv (done ++ [p]) (chainStep s p) := by
  obtain ⟨hne, hhead, hlast, hsub, hchain, hconv, htop, hslot⟩ := hI
  have hdone : done ≠ [] := by
    intro h
    subst h
    rcases s with _ | ⟨x, t⟩
    · exact hne rfl
    · simpa using hsub x (List.mem_cons_self x t)
  have hmem : ∀ x ∈ s, lexLt x p := fun x hx => hp x (hsub x hx)
  match hk : keep p s with
  | [] => exact absurd hk (keep_ne_nil hne)
  | h' :: t' =>
    have hsub' : ∀ x ∈ h' :: t', x ∈ s := fun x hx => keep_subset x (hk ▸ hx)
    refine ⟨by simp [chainStep], ?_, ?_, ?_, ?_, ?_, ?_, ?_⟩
    · simp only [chainStep, List.head?_cons, List.getLast?_concat]
    · show (p :: keep p s).getLast? = (done ++ [p]).head?
      rw [hk, List.getLast?_cons_cons, ← hk, keep_getLast?, hlast]
      match done with
      | d :: ds => simp
    · intro x hx
      rcases List.mem_cons.mp hx with rfl | hx'
      · exact List.mem_append_right _ (List.mem_cons_self _ _)
      · exact List.mem_append_left _ (hsub x (keep_subset x hx'))
    · show List.Chain' _ (p :: keep p s)
      rw [hk]
      refine List.chain'_cons.mpr ⟨?_, hk ▸ keep_chain' hchain⟩
      exact hmem h' (hsub' h' (List.mem_cons_self _ _))
    · show ConvexDesc (p :: keep p s)
      rw [hk]
      match t' with
      | [] => trivial
      | a :: rest =>
        exact ⟨keep_stop hk, hk ▸ keep_convex hconv⟩
    · intro q hq h hh
      have hhp : h = p := by
        have : (chainStep s p).head? = some p := rfl
        rw [this] at hh
        injection hh with hh
        exact hh.symm
      rcases List.mem_append.mp hq with hq' | hq'
      · rw [hhp]
        exact (hp q hq').le
      · rw [hhp, List.mem_singleton.mp hq']
        exact lexLe_refl _
    · intro q hq
      rcases List.mem_append.mp hq with hq' | hq'
      · refine Or.inl (chainStep_slot (hp q hq').le ?_)
        rcases hslot q hq' with hes | hsq
        · exact keep_cap hchain hmem (hp q hq') (Or.inl hes)
        · subst hsq
          exact Or.inr ⟨q, rfl, lexLe_refl q, le_of_eq (cross_self_outer q p).symm⟩
      · rw [List.mem_singleton.mp hq']
        exact Or.inl (chainStep_self_slot hne hmem)

theorem Inv_fold : ∀ (L done s : List Pt), Inv done s →
    (∀ q ∈ done, ∀ r ∈ L, lexLt q r) → L.Pairwise lexLt →
    Inv (done ++ L) (L.foldl chainStep s) := by
  intro L
  induction L with
  | nil => intro done s hI _ _; simpa using hI
  | cons p L' ih =>
    intro done s hI hcross hpw
    have h1 : Inv (done ++ [p]) (chainStep s p) :=
      Inv_step hI (fun q hq => hcross q hq p (List.mem_cons_self _ _))
    have h2 := ih (done ++ [p]) (chainStep s p) h1
      (by
        intro q hq r hr
        rcases List.mem_append.mp hq with hq' | hq'
        · exact hcross q hq' r (List.mem_cons_of_mem _ hr)
        · rw [List.mem_singleton.mp hq']
          exact (List.pairwise_cons.mp hpw).1 r hr)
      (List.pairwise_cons.mp hpw).2
    simpa using h2

theorem chainD_inv {L : List Pt} (hne : L ≠ []) (hpw : L.Pairwise lexLt) :
    Inv L (chainD L) := by
  match L with
  | x :: xs =>
    have hbase : Inv [x] [x] := by
      refine ⟨by simp, rfl, rfl, by simp, List.chain'_singleton x, trivial, ?_, ?_⟩
      · intro q hq h hh
        rw [List.mem_singleton.mp hq]
        injection hh with hh
        rw [← hh]
        exact lexLe_refl _
      · intro q hq
        rw [List.mem_singleton.mp hq]
        exact Or.inr rfl
    have hstep := Inv_fold xs [x] [x] hbase
      (by
        intro q hq r hr
        rw [List.mem_singleton.mp hq]
        exact (List.pairwise_cons.mp hpw).1 r hr)
      (List.pairwise_cons.mp hpw).2
    simpa [chainD] using hstep

/-- In a strictly descending stack the first component of any adjacent pair
is at most the head. -/
theorem desc_zip_le {s : List Pt} (hchain : List.Chain' (fun x y => lexLt y x) s)
    {e : Pt × Pt} (he : e ∈ s.zip s.tail) :
    ∀ h, s.head? = some h → lexLe e.1 h := by
  induction s with
  | nil => simp at he
  | cons x t ih =>
    match t with
    | [] => simp at he
    | y :: t' =>
      intro h hh
      injection hh with hh
      subst hh
      rcases List.mem_cons.mp he with rfl | he'
      · exact lexLe_refl _
      · have := ih (List.chain'_cons.mp hchain).2 he' y rfl
        exact lexLe_trans this ((List.chain'_cons.mp hchain).1).le

/-- Downward propagation: once a point is supported at the top edge of a
convex descending stack, it is supported by every edge below. -/
theorem down_prop (q : Pt) : ∀ (t : List Pt) (a b : Pt),
    List.Chain' (fun x y => lexLt y x) (b :: a :: t) →
    ConvexDesc (b :: a :: t) →
    0 ≤ cross a b q → lexLe a q →
    List.Chain' (fun hi lo => 0 ≤ cross lo hi q) (a :: t) := by
  intro t
  induction t with
  | nil => intro a b _ _ _ _; exact List.chain'_singleton a
  | cons a2 t2 ih =>
    intro a b hchain hconv hcr haq
    have hdesc1 : lexLt a b := (List.chain'_cons.mp hchain).1
    have hchain' : List.Chain' _ (a :: a2 :: t2) := (List.chain'_cons.mp hchain).2
    have hdesc2 : lexLt a2 a := (List.chain'_cons.mp hchain').1
    have hturn : 0 < cross a2 a b := hconv.1
    have hcr2 : 0 ≤ cross a2 a q := cross_step_down hdesc2 hdesc1 haq hturn hcr
    refine List.chain'_cons.mpr ⟨hcr2, ?_⟩
    exact ih a2 a hchain' (convexDesc_tail hconv) hcr2
      (lexLt_of_lt_of_le hdesc2 haq).le

/-- Globalization: a slot-supported point is supported by every edge of the
convex descending stack. -/
theorem slot_global : ∀ (s : List Pt) (q : Pt),
    List.Chain' (fun x y => lexLt y x) s → ConvexDesc s →
    (∀ h, s.head? = some h → lexLe q h) →
    edgeSlot s q →
    List.Chain' (fun hi lo => 0 ≤ cross lo hi q) s := by
  intro s
  induction s with
  | nil => intro q _ _ _ _; exact List.chain'_nil
  | cons b t ih =>
    match t with
    | [] => intro q _ _ _ _; exact List.chain'_singleton b
    | a :: t' =>
      intro q hchain hconv htop hes
      obtain ⟨e, he, h1, h2, h3⟩ := hes
      have hdesc1 : lexLt a b := (List.chain'_cons.mp hchain).1
      rcases List.mem_cons.mp he with rfl | he'
      · -- top-edge slot: propagate downward
        refine List.chain'_cons.mpr ⟨h3, ?_⟩
        exact down_prop q t' a b hchain hconv h3 h1
      · -- deeper slot: recurse, then propagate one step up
        have hqa : lexLe q a :=
          lexLe_trans h2 (desc_zip_le (List.chain'_cons.mp hchain).2 he' a rfl)
        have hIH : List.Chain' _ (a :: t') :=
          ih q (List.chain'_cons.mp hchain).2 (convexDesc_tail hconv)
            (by
              intro h hh
              injection hh with hh
              rw [← hh]
              exact hqa)
            ⟨e, he', h1, h2, h3⟩
        match t' with
        | [] => simp at he'
        | a2 :: t2 =>
          have hdesc2 : lexLt a2 a := (List.chain'_cons.mp (List.chain'_cons.mp hchain).2).1
          have hfa : 0 ≤ cross a2 a q := (List.chain'_cons.mp hIH).1
          have htop' : 0 ≤ cross a b q :=
            cross_step_up hdesc2 hdesc1 hqa hconv.1 hfa
          exact List.chain'_cons.mpr ⟨htop', hIH⟩

/-- Master support theorem for the half-hull: every input point is on or left
of every edge of the chain (edges read in ascending orientation). -/
theorem chainD_supports {L : List Pt} (hpw : L.Pairwise lexLt) {q : Pt} (hq : q ∈ L) :
    List.Chain' (fun hi lo => 0 ≤ cross lo hi q) (chainD L) := by
  have hne : L ≠ [] := by rintro rfl; simp at hq
  obtain ⟨hne', hhead, hlast, hsub, hchain, hconv, htop, hslot⟩ := chainD_inv hne hpw
  rcases hslot q hq with hes | hsq
  · exact slot_global _ q hchain hconv (fun h hh => htop q hq h hh) hes
  · rw [hsq]
    exact List.chain'_singleton _

/-! ### Duality: the upper chain is the lower chain of the negated points -/

/-- Point negation; reverses the lexicographic order, preserves `cross`. -/
def nu (p : Pt) : Pt := (-p.1, -p.2)

theorem nu_inj {a b : Pt} (h : nu a = nu b) : a = b := by
  unfold nu at h
  injection h with h1 h2
  exact Prod.ext (by linarith) (by linarith)

theorem nu_injective : Function.Injective nu := fun _ _ h => nu_inj h

theorem cross_nu (o a b : Pt) : cross (nu o) (nu a) (nu b) = cross o a b := by
  unfold cross nu; ring

theorem lexLt_nu {a b : Pt} : lexLt (nu a) (nu b) ↔ lexLt b a := by
  unfold lexLt nu
  constructor
  · rintro (h | ⟨e, h⟩)
    · exact Or.inl (by simpa using h)
    · exact Or.inr ⟨(by simpa using neg_injective e : a.1 = b.1).symm, by simpa using h⟩
  · rintro (h | ⟨e, h⟩)
    · exact Or.inl (by simpa using h)
    · exact Or.inr ⟨by simp [e], by simpa using h⟩

theorem keep_map_nu (p : Pt) : ∀ s : List Pt, keep (nu p) (s.map nu) = (keep p s).map nu := by
  intro s
  induction s with
  | nil => rfl
  | cons b t ih =>
    match t with
    | [] => rfl
    | a :: rest =>
      show keep (nu p) (nu b :: nu a :: rest.map nu) = _
      rw [keep, keep, cross_nu]
      split
      · exact ih
      · rfl

theorem chainD_map_nu (L : List Pt) : chainD (L.map nu) = (chainD L).map nu := by
  unfold chainD
  have : ∀ (M s : List Pt), (M.map nu).foldl chainStep (s.map nu) = (M.foldl chainStep s).map nu := by
    intro M
    induction M with
    | nil => intro s; rfl
    | cons p M' ih =>
      intro s
      show (M'.map nu).foldl chainStep (chainStep (s.map nu) (nu p)) = _
      have hstep : chainStep (s.map nu) (nu p) = (chainStep s p).map nu := by
        unfold chainStep
        rw [keep_map_nu]
        rfl
      rw [hstep]
      exact ih (chainStep s p)
  simpa using this L []

/-- Bundled facts about the upper chain `chainD S.reverse` for a strictly
increasing input `S`. -/
theorem upper_inv {S : List Pt} (hne : S ≠ []) (hpw : S.Pairwise lexLt) :
    chainD S.reverse ≠ [] ∧
    (chainD S.reverse).head? = S.head? ∧
    (chainD S.reverse).getLast? = S.getLast? ∧
    (∀ x ∈ chainD S.reverse, x ∈ S) ∧
    List.Chain' lexLt (chainD S.reverse) ∧
    ConvexDesc (chainD S.reverse) ∧
    (∀ q ∈ S, List.Chain' (fun hi lo => 0 ≤ cross lo hi q) (chainD S.reverse)) := by
  have hne' : S.reverse.map nu ≠ [] := by
    simpa using hne
  have hpw' : (S.reverse.map nu).Pairwise lexLt := by
    rw [List.pairwise_map]
    rw [List.pairwise_reverse]
    exact hpw.imp (fun h => lexLt_nu.mpr h)
  obtain ⟨i1, i2, i3, i4, i5, i6, _, _⟩ := chainD_inv hne' hpw'
  rw [chainD_map_nu] at i1 i2 i3 i4 i5 i6
  refine ⟨?_, ?_, ?_, ?_, ?_, ?_, ?_⟩
  · intro h
    rw [h] at i1
    exact i1 rfl
  · rw [List.head?_map, List.getLast?_map, List.getLast?_reverse] at i2
    exact Option.map_injective nu_injective i2
  · have : (chainD S.reverse).map nu ≠ [] := i1
    rw [List.getLast?_map, List.head?_map, List.head?_reverse] at i3
    exact Option.map_injective nu_injective i3
  · intro x hx
    have : nu x ∈ (chainD S.reverse).map nu := List.mem_map_of_mem nu hx
    have := i4 _ this
    simp only [List.mem_map, List.mem_reverse] at this
    obtain ⟨y, hy, hyx⟩ := this
    rw [← nu_inj hyx]
    exact hy
  · rw [List.chain'_map] at i5
    exact i5.imp (fun a b h => lexLt_nu.mp h)
  · -- ConvexDesc transfers through the negation map
    clear i1 i2 i3 i4 i5
    generalize chainD S.reverse = c at i6 ⊢
    induction c with
    | nil => trivial
    | cons x t ih =>
      match t with
      | [] => trivial
      | [y] => trivial
      | y :: z :: t' =>
        obtain ⟨h1, h2⟩ := i6
        rw [cross_nu] at h1
        exact ⟨h1, ih h2⟩
  · intro q hq
    have hq' : nu q ∈ S.reverse.map nu := by
      simp only [List.mem_map, List.mem_reverse]
      exact ⟨q, hq, rfl⟩
    have := chainD_supports hpw' hq'
    rw [chainD_map_nu, List.chain'_map] at this
    exact this.imp (fun a b h => by rwa [cross_nu] at h)

/-! ### The hull ring and the polygon builders of `tasks.py` -/

/-- Lexicographically sorted, duplicate-free copy of the input points
(preprocessing step of the monotone chain). -/
def sortedPts (pts : List Pt) : List Pt := (List.insertionSort lexLe pts).dedup

theorem sortedPts_pairwise (pts : List Pt) : (sortedPts pts).Pairwise lexLt := by
  have h1 : (List.insertionSort lexLe pts).Pairwise lexLe :=
    List.sorted_insertionSort lexLe pts
  have h2 : (sortedPts pts).Pairwise lexLe :=
    h1.sublist (List.dedup_sublist _)
  have h3 : (sortedPts pts).Nodup := List.nodup_dedup _
  exact (h2.and h3).imp (fun h => lexLt_of_le_of_ne h.1 h.2)

theorem mem_sortedPts {pts : List Pt} {x : Pt} : x ∈ sortedPts pts ↔ x ∈ pts :=
  List.mem_dedup.trans (List.perm_insertionSort lexLe pts).mem_iff

theorem sortedPts_ne_nil {pts : List Pt} (h : pts ≠ []) : sortedPts pts ≠ [] := by
  match pts with
  | p :: ps =>
    intro hS
    have : p ∈ sortedPts (p :: ps) := mem_sortedPts.mpr (List.mem_cons_self _ _)
    rw [hS] at this
    simp at this

/-- Modelled from the spec: closed counter-clockwise convex-hull ring of a
point set, built by the monotone chain (section 4.2 of the spec; this stands
in for shapely's `convex_hull` exterior ring, third-party code not present in
the repository).  Lower chain from the lexicographic minimum to the maximum,
then upper chain back; the concatenation already repeats the first vertex at
the end. -/
def convexHullRing (pts : List Pt) : List Pt :=
  let S := sortedPts pts
  (chainD S).reverse ++ ((chainD S.reverse).reverse).tail

/-- Helper `_bbox_polygon` of `tasks.py` (lines 81-97): the axis-aligned
bounding rectangle of the points as a closed 5-vertex ring
(bottom-left, top-left, top-right, bottom-right, bottom-left).  Python's
`min`/`max` over a non-empty list are folds from the first element. -/
def _bbox_polygon : List Pt → List Pt
  | [] => []
  | p :: ps =>
    let minx := ps.foldl (fun m q => min m q.1) p.1
    let maxx := ps.foldl (fun m q => max m q.1) p.1
    let miny := ps.foldl (fun m q => min m q.2) p.2
    let maxy := ps.foldl (fun m q => max m q.2) p.2
    [(minx, miny), (minx, maxy), (maxx, maxy), (maxx, miny), (minx, miny)]

/-- Helper `_as_polygon` of `tasks.py` (lines 62-76): bounding box for fewer
than 3 points, otherwise the convex hull; if the hull is degenerate (shapely
returns a non-Polygon, i.e. the closed ring has fewer than 4 entries =
fewer than 3 distinct hull vertices), fall back to the bounding box. -/
def _as_polygon (points : List Pt) : List Pt :=
  if points.length < 3 then _bbox_polygon points
  else
    let ring := convexHullRing points
    if ring.length < 4 then _bbox_polygon points
    else ring

/-- Adjacent-pair (edge) list of a ring. -/
def ringEdges (r : List Pt) : List (Pt × Pt) := r.zip r.tail

/-- Boundary-inclusive containment of a point in a convex ring: the point is
on the same (weak) side of every directed edge. -/
def inConvexRing (q : Pt) (r : List Pt) : Prop :=
  (∀ e ∈ ringEdges r, 0 ≤ cross e.1 e.2 q) ∨ (∀ e ∈ ringEdges r, cross e.1 e.2 q ≤ 0)

instance (q : Pt) (r : List Pt) : Decidable (inConvexRing q r) := by
  unfold inConvexRing; infer_instance

theorem chain'_iff_zip {R : Pt → Pt → Prop} : ∀ {l : List Pt},
    List.Chain' R l ↔ ∀ e ∈ l.zip l.tail, R e.1 e.2 := by
  intro l
  induction l with
  | nil => simp
  | cons x t ih =>
    match t with
    | [] => simp
    | y :: t' =>
      rw [List.chain'_cons, ih]
      constructor
      · rintro ⟨h1, h2⟩ e he
        rcases List.mem_cons.mp he with rfl | he'
        · exact h1
        · exact h2 e he'
      · intro h
        exact ⟨h (x, y) (List.mem_cons_self _ _), fun e he => h e (List.mem_cons_of_mem _ he)⟩

theorem chain'_glue {R : Pt → Pt → Prop} {l₁ l₂ : List Pt} {m : Pt}
    (h1 : List.Chain' R l₁) (h2 : List.Chain' R l₂)
    (hl : l₁.getLast? = some m) (hh : l₂.head? = some m) :
    List.Chain' R (l₁ ++ l₂.tail) := by
  rw [List.chain'_append]
  refine ⟨h1, h2.tail, ?_⟩
  intro x hx y hy
  rw [hl] at hx
  obtain rfl : m = x := by simpa using hx
  match l₂, hh with
  | m' :: t, hh =>
    obtain rfl : m' = m := by injection hh
    exact (List.chain'_cons'.mp h2).1 y hy

theorem zip_adj_append_left {l t : List Pt} {e : Pt × Pt}
    (he : e ∈ l.zip l.tail) : e ∈ (l ++ t).zip (l ++ t).tail := by
  induction l with
  | nil => simp at he
  | cons x ls ih =>
    match ls with
    | [] => simp at he
    | y :: ls' =>
      rcases List.mem_cons.mp he with rfl | he'
      · exact List.mem_cons_self _ _
      · exact List.mem_cons_of_mem _ (ih he')

theorem zip_adj_append_right : ∀ (l t : List Pt) {e : Pt × Pt},
    e ∈ t.zip t.tail → e ∈ (l ++ t).zip (l ++ t).tail := by
  intro l
  induction l with
  | nil => exact fun t e he => he
  | cons x ls ih =>
    intro t e he
    have h2 := ih t he
    match hM : ls ++ t with
    | [] =>
      rw [hM] at h2
      simp at h2
    | z :: M' =>
      have h2' : e ∈ (z :: M').zip M' := by rw [hM] at h2; exact h2
      show e ∈ (x :: (ls ++ t)).zip (ls ++ t)
      rw [hM]
      exact List.mem_cons_of_mem _ h2'

theorem zip_adj_reverse : ∀ {l : List Pt} {e : Pt × Pt},
    e ∈ l.zip l.tail → (e.2, e.1) ∈ l.reverse.zip l.reverse.tail := by
  intro l
  induction l with
  | nil => intro e he; simp at he
  | cons a ls ih =>
    intro e he
    match ls with
    | [] => simp at he
    | b :: ls' =>
      rcases List.mem_cons.mp he with rfl | he'
      · rw [List.reverse_cons, List.reverse_cons, List.append_assoc]
        exact zip_adj_append_right _ _ (by simp)
      · rw [List.reverse_cons]
        exact zip_adj_append_left (ih he')

/-- The junction pair of a list ending in `m` followed by `y :: t2` is an
adjacent pair of the concatenation. -/
theorem zip_adj_junction : ∀ (l₁ : List Pt) {m y : Pt}, l₁.getLast? = some m →
    ∀ t2 : List Pt, (m, y) ∈ (l₁ ++ y :: t2).zip ((l₁ ++ y :: t2).tail) := by
  intro l₁
  induction l₁ with
  | nil => intro m y hl; simp at hl
  | cons a l₁' ih =>
    intro m y hl t2
    match l₁' with
    | [] =>
      obtain rfl : a = m := by simpa using hl
      exact List.mem_cons_self _ _
    | b :: l₁'' =>
      rw [List.getLast?_cons_cons] at hl
      exact List.mem_cons_of_mem _ (ih hl t2)

/-- Every adjacent pair of `m :: t` is an adjacent pair of `l₁ ++ t` when
`l₁` ends in `m`. -/
theorem zip_adj_glue {l₁ t : List Pt} {m : Pt} {e : Pt × Pt}
    (hl : l₁.getLast? = some m)
    (he : e ∈ (m :: t).zip t) : e ∈ (l₁ ++ t).zip ((l₁ ++ t).tail) := by
  match t with
  | [] => simp at he
  | y :: t2 =>
    rcases List.mem_cons.mp he with rfl | he'
    · exact zip_adj_junction l₁ hl t2
    · exact zip_adj_append_right _ _ he'

/-- Spine facts: endpoints of the lower and upper chains of the hull. -/
theorem hull_spine {pts : List Pt} (hne : pts ≠ []) :
    ((chainD (sortedPts pts)).reverse).head? = (sortedPts pts).head? ∧
    ((chainD (sortedPts pts)).reverse).getLast? = (sortedPts pts).getLast? ∧
    ((chainD ((sortedPts pts).reverse)).reverse).head? = (sortedPts pts).getLast? ∧
    ((chainD ((sortedPts pts).reverse)).reverse).getLast? = (sortedPts pts).head? ∧
    (chainD (sortedPts pts)).reverse ≠ [] ∧
    (chainD ((sortedPts pts).reverse)).reverse ≠ [] := by
  obtain ⟨i1, i2, i3, _, _, _, _, _⟩ :=
    chainD_inv (sortedPts_ne_nil hne) (sortedPts_pairwise pts)
  obtain ⟨u1, u2, u3, _, _, _, _⟩ :=
    upper_inv (sortedPts_ne_nil hne) (sortedPts_pairwise pts)
  refine ⟨?_, ?_, ?_, ?_, ?_, ?_⟩
  · rw [List.head?_reverse, i3]
  · rw [List.getLast?_reverse, i2]
  · rw [List.head?_reverse, u3]
  · rw [List.getLast?_reverse, u2]
  · simpa using i1
  · simpa using u1

theorem convexHullRing_closed {pts : List Pt} (hne : pts ≠ []) :
    (convexHullRing pts).head? = (convexHullRing pts).getLast? := by
  obtain ⟨s1, s2, s3, s4, s5, s6⟩ := hull_spine hne
  obtain ⟨u0, ut, hu⟩ := List.exists_cons_of_ne_nil s6
  show ((chainD (sortedPts pts)).reverse ++
      ((chainD ((sortedPts pts).reverse)).reverse).tail).head? =
    ((chainD (sortedPts pts)).reverse ++
      ((chainD ((sortedPts pts).reverse)).reverse).tail).getLast?
  rw [hu] at s3 s4 ⊢
  match ut with
  | [] =>
    -- upper chain is a single vertex, so the sorted list is a single point
    simp only [List.tail_cons, List.append_nil]
    rw [s1, s2]
    have h3 : some u0 = (sortedPts pts).getLast? := by simpa using s3
    have h4 : some u0 = (sortedPts pts).head? := by simpa using s4
    rw [← h3, ← h4]
  | y :: ut' =>
    simp only [List.tail_cons]
    rw [List.head?_append_of_ne_nil _ s5,
      List.getLast?_append_of_ne_nil _ (by simp), s1]
    have hgl : (u0 :: y :: ut').getLast? = (y :: ut').getLast? := List.getLast?_cons_cons ..
    rw [hgl] at s4
    rw [s4]

theorem sortedPts_getLast {pts : List Pt} (hne : pts ≠ []) :
    ∃ M, (sortedPts pts).getLast? = some M := by
  match hS : sortedPts pts, sortedPts_ne_nil hne with
  | x :: xs, _ => exact ⟨(x :: xs).getLast (by simp), List.getLast?_eq_getLast _ _⟩

/-- Every input point is on or to the left of every directed edge of the
closed hull ring. -/
theorem convexHullRing_supports {pts : List Pt} (hne : pts ≠ []) {q : Pt} (hq : q ∈ pts) :
    List.Chain' (fun u v => 0 ≤ cross u v q) (convexHullRing pts) := by
  obtain ⟨s1, s2, s3, s4, s5, s6⟩ := hull_spine hne
  have hqS : q ∈ sortedPts pts := mem_sortedPts.mpr hq
  have hlow : List.Chain' (fun u v => 0 ≤ cross u v q) ((chainD (sortedPts pts)).reverse) := by
    rw [List.chain'_reverse]
    exact chainD_supports (sortedPts_pairwise pts) hqS
  have hupp : List.Chain' (fun u v => 0 ≤ cross u v q)
      ((chainD ((sortedPts pts).reverse)).reverse) := by
    rw [List.chain'_reverse]
    exact (upper_inv (sortedPts_ne_nil hne) (sortedPts_pairwise pts)).2.2.2.2.2.2 q hqS
  obtain ⟨M, hM⟩ := sortedPts_getLast hne
  show List.Chain' _ ((chainD (sortedPts pts)).reverse ++
    ((chainD ((sortedPts pts).reverse)).reverse).tail)
  exact chain'_glue hlow hupp (s2.trans hM) (s3.trans hM)

theorem convexHullRing_subset {pts : List Pt} (hne : pts ≠ []) :
    ∀ x ∈ convexHullRing pts, x ∈ pts := by
  intro x hx
  have hx' : x ∈ (chainD (sortedPts pts)).reverse ++
      ((chainD ((sortedPts pts).reverse)).reverse).tail := hx
  rcases List.mem_append.mp hx' with h | h
  · have := (chainD_inv (sortedPts_ne_nil hne) (sortedPts_pairwise pts)).2.2.2.1 x
      (List.mem_reverse.mp h)
    exact mem_sortedPts.mp this
  · have := (upper_inv (sortedPts_ne_nil hne) (sortedPts_pairwise pts)).2.2.2.1 x
      (List.mem_reverse.mp (List.mem_of_mem_tail h))
    exact mem_sortedPts.mp this

/-- Adjacent vertices of the hull ring are distinct. -/
theorem convexHullRing_adj_ne {pts : List Pt} (hne : pts ≠ []) :
    List.Chain' (fun u v => u ≠ v) (convexHullRing pts) := by
  obtain ⟨s1, s2, s3, s4, s5, s6⟩ := hull_spine hne
  have hlow : List.Chain' (fun u v => u ≠ v) ((chainD (sortedPts pts)).reverse) := by
    rw [List.chain'_reverse]
    exact ((chainD_inv (sortedPts_ne_nil hne) (sortedPts_pairwise pts)).2.2.2.2.1).imp
      (fun a b h => fun e => lexLt_irrefl _ (e ▸ h))
  have hupp : List.Chain' (fun u v => u ≠ v)
      ((chainD ((sortedPts pts).reverse)).reverse) := by
    rw [List.chain'_reverse]
    exact ((upper_inv (sortedPts_ne_nil hne) (sortedPts_pairwise pts)).2.2.2.2.1).imp
      (fun a b h => fun e => lexLt_irrefl _ (e ▸ h))
  obtain ⟨M, hM⟩ := sortedPts_getLast hne
  show List.Chain' _ ((chainD (sortedPts pts)).reverse ++
    ((chainD ((sortedPts pts).reverse)).reverse).tail)
  exact chain'_glue hlow hupp (s2.trans hM) (s3.trans hM)

theorem mem_of_getLast? : ∀ {l : List Pt} {a : Pt}, l.getLast? = some a → a ∈ l := by
  intro l a h
  match l with
  | [] => simp at h
  | x :: xs =>
    rw [List.getLast?_eq_getLast (x :: xs) (by simp)] at h
    injection h with h
    rw [← h]
    exact List.getLast_mem _

theorem convexHullRing_length {pts : List Pt} (hne : pts ≠ []) :
    (convexHullRing pts).length + 1 =
      (chainD (sortedPts pts)).length + (chainD ((sortedPts pts).reverse)).length := by
  obtain ⟨s1, s2, s3, s4, s5, s6⟩ := hull_spine hne
  obtain ⟨u0, ut, hu⟩ := List.exists_cons_of_ne_nil s6
  show ((chainD (sortedPts pts)).reverse ++
      ((chainD ((sortedPts pts).reverse)).reverse).tail).length + 1 = _
  rw [hu, List.length_append, List.length_reverse, List.tail_cons]
  have : (chainD ((sortedPts pts).reverse)).length = (u0 :: ut).length := by
    rw [← List.length_reverse, hu]
  rw [this]
  simp only [List.length_cons]
  omega

theorem mem_ring_of_mem_lower {pts : List Pt} {x : Pt}
    (h : x ∈ chainD (sortedPts pts)) : x ∈ convexHullRing pts := by
  show x ∈ (chainD (sortedPts pts)).reverse ++
    ((chainD ((sortedPts pts).reverse)).reverse).tail
  exact List.mem_append_left _ (List.mem_reverse.mpr h)

theorem ringEdge_of_lower {pts : List Pt} {e : Pt × Pt}
    (h : e ∈ (chainD (sortedPts pts)).zip (chainD (sortedPts pts)).tail) :
    (e.2, e.1) ∈ ringEdges (convexHullRing pts) := by
  show (e.2, e.1) ∈ ((chainD (sortedPts pts)).reverse ++
      ((chainD ((sortedPts pts).reverse)).reverse).tail).zip
    (((chainD (sortedPts pts)).reverse ++
      ((chainD ((sortedPts pts).reverse)).reverse).tail).tail)
  exact zip_adj_append_left (zip_adj_reverse h)

theorem mem_ring_of_mem_upper {pts : List Pt} {x : Pt} (hne : pts ≠ [])
    (h : x ∈ chainD ((sortedPts pts).reverse)) : x ∈ convexHullRing pts := by
  obtain ⟨s1, s2, s3, s4, s5, s6⟩ := hull_spine hne
  obtain ⟨u0, ut, hu⟩ := List.exists_cons_of_ne_nil s6
  have hx : x ∈ u0 :: ut := by
    rw [← hu]
    exact List.mem_reverse.mpr h
  show x ∈ (chainD (sortedPts pts)).reverse ++
    ((chainD ((sortedPts pts).reverse)).reverse).tail
  rcases List.mem_cons.mp hx with rfl | hx'
  · -- x is the shared top vertex: it is the last vertex of the lower chain
    refine List.mem_append_left _ (mem_of_getLast? ?_)
    rw [s2, ← s3, hu]
    rfl
  · rw [hu]
    exact List.mem_append_right _ hx'

theorem ringEdge_of_upper {pts : List Pt} {e : Pt × Pt} (hne : pts ≠ [])
    (h : e ∈ (chainD ((sortedPts pts).reverse)).zip (chainD ((sortedPts pts).reverse)).tail) :
    (e.2, e.1) ∈ ringEdges (convexHullRing pts) := by
  obtain ⟨s1, s2, s3, s4, s5, s6⟩ := hull_spine hne
  obtain ⟨u0, ut, hu⟩ := List.exists_cons_of_ne_nil s6
  have hrev : (e.2, e.1) ∈ (u0 :: ut).zip ut := by
    have := zip_adj_reverse h
    rw [hu] at this
    exact this
  show (e.2, e.1) ∈ ((chainD (sortedPts pts)).reverse ++
      ((chainD ((sortedPts pts).reverse)).reverse).tail).zip
    (((chainD (sortedPts pts)).reverse ++
      ((chainD ((sortedPts pts).reverse)).reverse).tail).tail)
  rw [hu, List.tail_cons]
  exact zip_adj_glue (by rw [s2, ← s3, hu]; rfl) hrev

/-- Counter-clockwise orientation of a convex ring: every vertex is on or
left of every directed edge, and strictly left of at least one. -/
def ringCCW (r : List Pt) : Prop :=
  (∀ e ∈ ringEdges r, ∀ w ∈ r, 0 ≤ cross e.1 e.2 w) ∧
  (∃ e ∈ ringEdges r, ∃ w ∈ r, 0 < cross e.1 e.2 w)

instance (r : List Pt) : Decidable (ringCCW r) := by
  unfold ringCCW ringEdges; infer_instance

theorem convexHullRing_ccw {pts : List Pt} (hne : pts ≠ [])
    (hlen : 4 ≤ (convexHullRing pts).length) : ringCCW (convexHullRing pts) := by
  constructor
  · intro e he w hw
    exact chain'_iff_zip.mp (convexHullRing_supports hne (convexHullRing_subset hne w hw)) e he
  · by_cases h3 : 3 ≤ (chainD (sortedPts pts)).length
    · obtain ⟨c, b, a, t, hc⟩ : ∃ c b a t, chainD (sortedPts pts) = c :: b :: a :: t := by
        match hcc : chainD (sortedPts pts), h3 with
        | c :: b :: a :: t, _ => exact ⟨c, b, a, t, rfl⟩
      have hconv := (chainD_inv (sortedPts_ne_nil hne) (sortedPts_pairwise pts)).2.2.2.2.2.1
      rw [hc] at hconv
      refine ⟨(a, b), ?_, c, ?_, hconv.1⟩
      · have : (b, a) ∈ (chainD (sortedPts pts)).zip (chainD (sortedPts pts)).tail := by
          rw [hc]
          exact List.mem_cons_of_mem _ (List.mem_cons_self _ _)
        exact ringEdge_of_lower this
      · exact mem_ring_of_mem_lower (by rw [hc]; exact List.mem_cons_self _ _)
    · have h3' : 3 ≤ (chainD ((sortedPts pts).reverse)).length := by
        have := convexHullRing_length hne
        omega
      obtain ⟨c, b, a, t, hc⟩ : ∃ c b a t, chainD ((sortedPts pts).reverse) = c :: b :: a :: t := by
        match hcc : chainD ((sortedPts pts).reverse), h3' with
        | c :: b :: a :: t, _ => exact ⟨c, b, a, t, rfl⟩
      have hconv := (upper_inv (sortedPts_ne_nil hne) (sortedPts_pairwise pts)).2.2.2.2.2.1
      rw [hc] at hconv
      refine ⟨(a, b), ?_, c, ?_, hconv.1⟩
      · have : (b, a) ∈ (chainD ((sortedPts pts).reverse)).zip
            (chainD ((sortedPts pts).reverse)).tail := by
          rw [hc]
          exact List.mem_cons_of_mem _ (List.mem_cons_self _ _)
        exact ringEdge_of_upper hne this
      · exact mem_ring_of_mem_upper hne (by rw [hc]; exact List.mem_cons_self _ _)

/-! ### Degenerate inputs: collinear point sets and the bounding box -/

/-- Every triple drawn from the list is collinear. -/
def AllCollinear (pts : List Pt) : Prop :=
  ∀ a ∈ pts, ∀ b ∈ pts, ∀ c ∈ pts, cross a b c = 0

instance (pts : List Pt) : Decidable (AllCollinear pts) := by
  unfold AllCollinear; infer_instance

theorem cross_left_self (a b : Pt) : cross a a b = 0 := by
  unfold cross; ring

/-- Fewer than three distinct points means every triple is collinear. -/
theorem allCollinear_of_dedup_short {pts : List Pt} (h : pts.dedup.length < 3) :
    AllCollinear pts := by
  intro a ha b hb c hc
  have ha' : a ∈ pts.dedup := List.mem_dedup.mpr ha
  have hb' : b ∈ pts.dedup := List.mem_dedup.mpr hb
  have hc' : c ∈ pts.dedup := List.mem_dedup.mpr hc
  match hd : pts.dedup with
  | [] =>
    rw [hd] at ha'
    simp at ha'
  | [u] =>
    rw [hd] at ha' hb'
    obtain rfl : a = u := by simpa using ha'
    obtain rfl : b = a := by simpa using hb'
    exact cross_left_self ..
  | [u, v] =>
    rw [hd] at ha' hb' hc'
    have hA : a = u ∨ a = v := by simpa using ha'
    have hB : b = u ∨ b = v := by simpa using hb'
    have hC : c = u ∨ c = v := by simpa using hc'
    rcases hA with rfl | rfl <;> rcases hB with hB | hB <;> rcases hC with hC | hC <;>
      first
        | (rw [hB]; exact cross_left_self ..)
        | (rw [hC]; exact cross_self_outer ..)
        | (rw [hB, hC]; exact cross_self_right ..)
  | u :: v :: w :: t =>
    rw [hd] at h
    simp at h
    omega

/-- A strictly convex stack whose members are all drawn from a collinear set
has at most two entries. -/
theorem convex_len_le_two {c L : List Pt} (hconv : ConvexDesc c)
    (hsub : ∀ x ∈ c, x ∈ L) (hcol : AllCollinear L) : c.length ≤ 2 := by
  match c with
  | [] => simp
  | [x] => simp
  | [x, y] => simp
  | x :: y :: z :: t =>
    exfalso
    have h0 : cross z y x = 0 :=
      hcol z (hsub z (by simp)) y (hsub y (by simp)) x (hsub x (by simp))
    have := hconv.1
    rw [h0] at this
    exact lt_irrefl _ this

/-- On a collinear point set both half-hulls collapse, so the closed ring has
fewer than 4 entries and `_as_polygon` falls back to the bounding box. -/
theorem convexHullRing_short_of_collinear {pts : List Pt} (hne : pts ≠ [])
    (hcol : AllCollinear pts) : (convexHullRing pts).length < 4 := by
  have hlow : (chainD (sortedPts pts)).length ≤ 2 := by
    obtain ⟨_, _, _, hsub, _, hconv, _, _⟩ :=
      chainD_inv (sortedPts_ne_nil hne) (sortedPts_pairwise pts)
    exact convex_len_le_two hconv (fun x hx => mem_sortedPts.mp (hsub x hx)) hcol
  have hupp : (chainD ((sortedPts pts).reverse)).length ≤ 2 := by
    obtain ⟨_, _, _, hsub, _, hconv, _⟩ :=
      upper_inv (sortedPts_ne_nil hne) (sortedPts_pairwise pts)
    exact convex_len_le_two hconv (fun x hx => mem_sortedPts.mp (hsub x hx)) hcol
  have := convexHullRing_length hne
  omega

theorem foldl_min_le (f : Pt → ℚ) : ∀ (ps : List Pt) (a : ℚ),
    ps.foldl (fun m q => min m (f q)) a ≤ a ∧
    ∀ x ∈ ps, ps.foldl (fun m q => min m (f q)) a ≤ f x := by
  intro ps
  induction ps with
  | nil => intro a; exact ⟨le_refl a, by simp⟩
  | cons p ps' ih =>
    intro a
    obtain ⟨h1, h2⟩ := ih (min a (f p))
    refine ⟨le_trans h1 (min_le_left ..), ?_⟩
    intro x hx
    rcases List.mem_cons.mp hx with rfl | hx'
    · exact le_trans h1 (min_le_right ..)
    · exact h2 x hx'

theorem le_foldl_max (f : Pt → ℚ) : ∀ (ps : List Pt) (a : ℚ),
    a ≤ ps.foldl (fun m q => max m (f q)) a ∧
    ∀ x ∈ ps, f x ≤ ps.foldl (fun m q => max m (f q)) a := by
  intro ps
  induction ps with
  | nil => intro a; exact ⟨le_refl a, by simp⟩
  | cons p ps' ih =>
    intro a
    obtain ⟨h1, h2⟩ := ih (max a (f p))
    refine ⟨le_trans (le_max_left ..) h1, ?_⟩
    intro x hx
    rcases List.mem_cons.mp hx with rfl | hx'
    · exact le_trans (le_max_right ..) h1
    · exact h2 x hx'

/-- A point inside the axis-aligned box is on the right (clockwise inside)
of every directed edge of the box ring. -/
theorem bbox_ring_cross {minx maxx miny maxy : ℚ} {q : Pt}
    (h1 : minx ≤ q.1) (h2 : q.1 ≤ maxx) (h3 : miny ≤ q.2) (h4 : q.2 ≤ maxy) :
    ∀ e ∈ ringEdges [((minx, miny) : Pt), (minx, maxy), (maxx, maxy),
      (maxx, miny), (minx, miny)], cross e.1 e.2 q ≤ 0 := by
  intro e he
  have hE : ringEdges [((minx, miny) : Pt), (minx, maxy), (maxx, maxy),
      (maxx, miny), (minx, miny)] =
      [(((minx, miny) : Pt), ((minx, maxy) : Pt)), ((minx, maxy), (maxx, maxy)),
       ((maxx, maxy), (maxx, miny)), ((maxx, miny), (minx, miny))] := rfl
  rw [hE] at he
  simp only [List.mem_cons, List.mem_singleton, List.not_mem_nil, or_false] at he
  rcases he with rfl | rfl | rfl | rfl
  · have h : cross ((minx, miny) : Pt) ((minx, maxy) : Pt) q
        = -((maxy - miny) * (q.1 - minx)) := by
      unfold cross; ring
    rw [h]
    nlinarith [mul_nonneg (by linarith : (0:ℚ) ≤ maxy - miny) (by linarith : (0:ℚ) ≤ q.1 - minx)]
  · have h : cross ((minx, maxy) : Pt) ((maxx, maxy) : Pt) q
        = (maxx - minx) * (q.2 - maxy) := by
      unfold cross; ring
    rw [h]
    nlinarith [mul_nonneg (by linarith : (0:ℚ) ≤ maxx - minx) (by linarith : (0:ℚ) ≤ maxy - q.2)]
  · have h : cross ((maxx, maxy) : Pt) ((maxx, miny) : Pt) q
        = -((maxy - miny) * (maxx - q.1)) := by
      unfold cross; ring
    rw [h]
    nlinarith [mul_nonneg (by linarith : (0:ℚ) ≤ maxy - miny) (by linarith : (0:ℚ) ≤ maxx - q.1)]
  · have h : cross ((maxx, miny) : Pt) ((minx, miny) : Pt) q
        = -((maxx - minx) * (q.2 - miny)) := by
      unfold cross; ring
    rw [h]
    nlinarith [mul_nonneg (by linarith : (0:ℚ) ≤ maxx - minx) (by linarith : (0:ℚ) ≤ q.2 - miny)]

theorem bbox_bounds {p : Pt} {ps : List Pt} {q : Pt} (hq : q ∈ p :: ps) :
    ps.foldl (fun m r => min m r.1) p.1 ≤ q.1 ∧
    q.1 ≤ ps.foldl (fun m r => max m r.1) p.1 ∧
    ps.foldl (fun m r => min m r.2) p.2 ≤ q.2 ∧
    q.2 ≤ ps.foldl (fun m r => max m r.2) p.2 := by
  obtain ⟨ha1, hb1⟩ := foldl_min_le Prod.fst ps p.1
  obtain ⟨ha2, hb2⟩ := le_foldl_max Prod.fst ps p.1
  obtain ⟨ha3, hb3⟩ := foldl_min_le Prod.snd ps p.2
  obtain ⟨ha4, hb4⟩ := le_foldl_max Prod.snd ps p.2
  rcases List.mem_cons.mp hq with rfl | hq'
  · exact ⟨ha1, ha2, ha3, ha4⟩
  · exact ⟨hb1 q hq', hb2 q hq', hb3 q hq', hb4 q hq'⟩

theorem bbox_inConvexRing {pts : List Pt} {q : Pt} (hq : q ∈ pts) :
    inConvexRing q (_bbox_polygon pts) := by
  match pts with
  | p :: ps =>
    show (∀ e ∈ ringEdges (_bbox_polygon (p :: ps)), 0 ≤ cross e.1 e.2 q) ∨
      (∀ e ∈ ringEdges (_bbox_polygon (p :: ps)), cross e.1 e.2 q ≤ 0)
    right
    intro e he
    obtain ⟨h1, h2, h3, h4⟩ := bbox_bounds hq
    exact bbox_ring_cross h1 h2 h3 h4 e he

/-- Which branch of `_as_polygon` runs: the bounding box is used when there
are fewer than 3 points or the hull ring is degenerate. -/
def bboxTaken (pts : List Pt) : Prop :=
  pts.length < 3 ∨ (convexHullRing pts).length < 4

instance (pts : List Pt) : Decidable (bboxTaken pts) := by
  unfold bboxTaken; infer_instance

theorem asPolygon_eq_bbox_of_bboxTaken {pts : List Pt} (h : bboxTaken pts) :
    _as_polygon pts = _bbox_polygon pts := by
  unfold _as_polygon
  split
  · rfl
  · rename_i hlen
    show (if (convexHullRing pts).length < 4 then _bbox_polygon pts
      else convexHullRing pts) = _bbox_polygon pts
    rcases h with h | h
    · exact absurd h hlen
    · rw [if_pos h]

theorem asPolygon_eq_ring_of_not_bboxTaken {pts : List Pt} (h : ¬ bboxTaken pts) :
    _as_polygon pts = convexHullRing pts := by
  unfold _as_polygon
  split
  · rename_i hlen
    exact absurd (Or.inl hlen) h
  · show (if (convexHullRing pts).length < 4 then _bbox_polygon pts
      else convexHullRing pts) = convexHullRing pts
    rw [if_neg (fun hc => h (Or.inr hc))]

/-- Containment: the polygon built by `_as_polygon` contains every input
point, in both the hull and the bounding-box branches. -/
theorem asPolygon_contains {pts : List Pt} (hne : pts ≠ []) {q : Pt} (hq : q ∈ pts) :
    inConvexRing q (_as_polygon pts) := by
  by_cases h : bboxTaken pts
  · rw [asPolygon_eq_bbox_of_bboxTaken h]
    exact bbox_inConvexRing hq
  · rw [asPolygon_eq_ring_of_not_bboxTaken h]
    exact Or.inl (fun e he => chain'_iff_zip.mp (convexHullRing_supports hne hq) e he)

/-- The bounding-box corner coordinates, as computed by `_bbox_polygon`. -/
def bboxMinX : List Pt → ℚ
  | [] => 0
  | p :: ps => ps.foldl (fun m r => min m r.1) p.1

def bboxMaxX : List Pt → ℚ
  | [] => 0
  | p :: ps => ps.foldl (fun m r => max m r.1) p.1

def bboxMinY : List Pt → ℚ
  | [] => 0
  | p :: ps => ps.foldl (fun m r => min m r.2) p.2

def bboxMaxY : List Pt → ℚ
  | [] => 0
  | p :: ps => ps.foldl (fun m r => max m r.2) p.2

theorem bbox_eq {pts : List Pt} (hne : pts ≠ []) :
    _bbox_polygon pts = [(bboxMinX pts, bboxMinY pts), (bboxMinX pts, bboxMaxY pts),
      (bboxMaxX pts, bboxMaxY pts), (bboxMaxX pts, bboxMinY pts),
      (bboxMinX pts, bboxMinY pts)] := by
  match pts with
  | p :: ps => rfl

theorem bbox_length {pts : List Pt} (hne : pts ≠ []) : (_bbox_polygon pts).length = 5 := by
  rw [bbox_eq hne]
  rfl

theorem bbox_closed {pts : List Pt} (hne : pts ≠ []) :
    (_bbox_polygon pts).head? = (_bbox_polygon pts).getLast? := by
  rw [bbox_eq hne]
  rfl

/-- A non-degenerate bounding box ring has no repeated adjacent vertices. -/
theorem bbox_adj_ne {pts : List Pt} (hne : pts ≠ [])
    (hx : bboxMinX pts < bboxMaxX pts) (hy : bboxMinY pts < bboxMaxY pts) :
    ∀ e ∈ ringEdges (_bbox_polygon pts), e.1 ≠ e.2 := by
  rw [bbox_eq hne]
  intro e he
  have hE : ringEdges [((bboxMinX pts, bboxMinY pts) : Pt),
      (bboxMinX pts, bboxMaxY pts), (bboxMaxX pts, bboxMaxY pts),
      (bboxMaxX pts, bboxMinY pts), (bboxMinX pts, bboxMinY pts)] =
      [(((bboxMinX pts, bboxMinY pts) : Pt), ((bboxMinX pts, bboxMaxY pts) : Pt)),
       ((bboxMinX pts, bboxMaxY pts), (bboxMaxX pts, bboxMaxY pts)),
       ((bboxMaxX pts, bboxMaxY pts), (bboxMaxX pts, bboxMinY pts)),
       ((bboxMaxX pts, bboxMinY pts), (bboxMinX pts, bboxMinY pts))] := rfl
  rw [hE] at he
  simp only [List.mem_cons, List.mem_singleton, List.not_mem_nil, or_false] at he
  rcases he with rfl | rfl | rfl | rfl <;> intro h <;> injection h with h1 h2
  · exact absurd h2 (ne_of_lt hy)
  · exact absurd h1 (ne_of_lt hx)
  · exact absurd h2 (ne_of_gt hy)
  · exact absurd h1 (ne_of_gt hx)

/-- The ring has no duplicate adjacent vertices other than the closing repeat,
in both the hull branch and the non-degenerate bounding-box branch. -/
def noConsecDup (r : List Pt) : Prop := ∀ e ∈ ringEdges r, e.1 ≠ e.2

instance (r : List Pt) : Decidable (noConsecDup r) := by
  unfold noConsecDup ringEdges; infer_instance

theorem asPolygon_noConsecDup {pts : List Pt} (hne : pts ≠ [])
    (hdeg : bboxTaken pts → bboxMinX pts < bboxMaxX pts ∧ bboxMinY pts < bboxMaxY pts) :
    noConsecDup (_as_polygon pts) := by
  by_cases h : bboxTaken pts
  · rw [asPolygon_eq_bbox_of_bboxTaken h]
    obtain ⟨hx, hy⟩ := hdeg h
    exact bbox_adj_ne hne hx hy
  · rw [asPolygon_eq_ring_of_not_bboxTaken h]
    exact fun e he => chain'_iff_zip.mp (convexHullRing_adj_ne hne) e he

theorem asPolygon_closed {pts : List Pt} (hne : pts ≠ []) :
    (_as_polygon pts).head? = (_as_polygon pts).getLast? := by
  by_cases h : bboxTaken pts
  · rw [asPolygon_eq_bbox_of_bboxTaken h]
    exact bbox_closed hne
  · rw [asPolygon_eq_ring_of_not_bboxTaken h]
    exact convexHullRing_closed hne

theorem asPolygon_ccw_of_hull {pts : List Pt} (hne : pts ≠ []) (h : ¬ bboxTaken pts) :
    ringCCW (_as_polygon pts) := by
  rw [asPolygon_eq_ring_of_not_bboxTaken h]
  refine convexHullRing_ccw hne (not_lt.mp fun hc => h (Or.inr hc))

/-- Degenerate point sets (fewer than 3 points, or all collinear — which
covers fewer than 3 distinct points) take the bounding-box branch. -/
theorem asPolygon_eq_bbox_of_degenerate {pts : List Pt} (hne : pts ≠ [])
    (h : pts.length < 3 ∨ AllCollinear pts) : _as_polygon pts = _bbox_polygon pts := by
  apply asPolygon_eq_bbox_of_bboxTaken
  rcases h with h | h
  · exact Or.inl h
  · exact Or.inr (convexHullRing_short_of_collinear hne h)

/-! ### The DBSCAN clustering model and the `generate_hotspots` task -/

/-- Squared Euclidean distance; comparing it with the squared radius keeps
the arithmetic rational and is equivalent to comparing distances. -/
def sqDist (p q : Pt) : ℚ := (p.1 - q.1) ^ 2 + (p.2 - q.2) ^ 2

/-- Modelled from the spec: section 4.1 fixes the epsilon-neighbourhood of index
`i` (distance at most eps, the point itself included), the neighbour query
of scikit-learn's DBSCAN, which is third-party code not in the repository.
`eps2` is the squared radius. -/
def neighborIdxs (pts : List Pt) (eps2 : ℚ) (i : Nat) : List Nat :=
  (List.range pts.length).filter
    (fun j => decide (sqDist (pts.getD i (0, 0)) (pts.getD j (0, 0)) ≤ eps2))

/-- Modelled from the spec: a core point has at least `minPts` points within
distance eps, itself included. -/
def isCorePt (pts : List Pt) (eps2 : ℚ) (minPts : Nat) (i : Nat) : Bool :=
  decide (minPts ≤ (neighborIdxs pts eps2 i).length)

/-- One expansion step of density reachability: keep the current members and
add every point directly density-reachable from a core member. -/
def growStep (pts : List Pt) (eps2 : ℚ) (minPts : Nat) (S : List Nat) : List Nat :=
  (List.range pts.length).filter
    (fun j => S.contains j ||
      S.any (fun i => isCorePt pts eps2 minPts i && (neighborIdxs pts eps2 i).contains j))

/-- Modelled from the spec: the indices density-reachable from `seed`
(transitive closure, reached after at most `pts.length` expansion steps). -/
def reachableFrom (pts : List Pt) (eps2 : ℚ) (minPts : Nat) (seed : Nat) : List Nat :=
  (growStep pts eps2 minPts)^[pts.length] [seed]

/-- Modelled from the spec: section 4.1 fixes DBSCAN labelling with the
deterministic ascending-index traversal; `-1` is noise, cluster ids count up
from 0 in order of discovery.  An unlabelled core point seeds a new cluster
and labels every still-unlabelled point density-reachable from it. -/
def dbscanLabels (pts : List Pt) (eps2 : ℚ) (minPts : Nat) : List Int :=
  let n := pts.length
  let fin := (List.range n).foldl
    (fun (st : (Nat → Option Nat) × Nat) i =>
      if (st.1 i).isNone && isCorePt pts eps2 minPts i then
        let cl := reachableFrom pts eps2 minPts i
        (fun j => if cl.contains j && (st.1 j).isNone then some st.2 else st.1 j,
          st.2 + 1)
      else st)
    ((fun _ => (none : Option Nat)), 0)
  (List.range n).map (fun i =>
    match fin.1 i with
    | none => (-1 : Int)
    | some c => (c : Int))

/-- Exactly one label per input point. -/
theorem dbscanLabels_length (pts : List Pt) (eps2 : ℚ) (minPts : Nat) :
    (dbscanLabels pts eps2 minPts).length = pts.length := by
  simp [dbscanLabels]

/-- `clusters.setdefault(label, []).append((x, y))` over an insertion-ordered
dict, as an association list. -/
def addToGroup : List (Int × List Pt) → Int → Pt → List (Int × List Pt)
  | [], l, p => [(l, [p])]
  | (l', ps) :: t, l, p =>
    if l' = l then (l', ps ++ [p]) :: t else (l', ps) :: addToGroup t l p

/-- The grouping loop of `generate_hotspots` (tasks.py lines 36-43): group
the (point, label) pairs by label, skipping noise (label -1). -/
def groupClusters (prs : List (Pt × Int)) : List (Int × List Pt) :=
  prs.foldl (fun gs pl => if pl.2 = -1 then gs else addToGroup gs pl.2 pl.1) []

/-- The noise points: those whose label is -1. -/
def noisePts (prs : List (Pt × Int)) : List Pt :=
  (prs.filter (fun pl => decide (pl.2 = -1))).map Prod.fst

/-- Multiset of all points stored across the materialized clusters. -/
def groupPts (gs : List (Int × List Pt)) : Multiset Pt :=
  (gs.map (fun g => ((g.2 : List Pt) : Multiset Pt))).sum

theorem groupPts_cons (g : Int × List Pt) (t : List (Int × List Pt)) :
    groupPts (g :: t) = (g.2 : Multiset Pt) + groupPts t := by
  simp [groupPts]

theorem groupPts_addToGroup (gs : List (Int × List Pt)) (l : Int) (p : Pt) :
    groupPts (addToGroup gs l p) = groupPts gs + {p} := by
  induction gs with
  | nil => simp [addToGroup, groupPts]
  | cons g t ih =>
    match g with
    | (l', ps) =>
      rw [addToGroup]
      split
      · rw [groupPts_cons, groupPts_cons, ← Multiset.coe_add, Multiset.coe_singleton]
        abel
      · rw [groupPts_cons, groupPts_cons, ih, ← add_assoc]

theorem groupPts_foldl (prs : List (Pt × Int)) : ∀ gs : List (Int × List Pt),
    groupPts (prs.foldl (fun gs pl => if pl.2 = -1 then gs else addToGroup gs pl.2 pl.1) gs) =
      groupPts gs +
        (((prs.filter (fun pl => !(decide (pl.2 = -1)))).map Prod.fst : List Pt) : Multiset Pt) := by
  induction prs with
  | nil => intro gs; simp
  | cons pl prs' ih =>
    intro gs
    by_cases h : pl.2 = -1
    · rw [List.foldl_cons, if_pos h, ih, List.filter_cons_of_neg (by simp [h])]
    · rw [List.foldl_cons, if_neg h, ih, List.filter_cons_of_pos (by simp [h]),
        groupPts_addToGroup, List.map_cons]
      show _ + {pl.1} + _ = _
      rw [show ((pl.1 :: (prs'.filter (fun pl => !(decide (pl.2 = -1)))).map Prod.fst : List Pt) :
        Multiset Pt) = {pl.1} + ((prs'.filter (fun pl => !(decide (pl.2 = -1)))).map Prod.fst :
          List Pt) from by rw [← Multiset.coe_singleton, Multiset.coe_add]; rfl]
      abel

/-- Partition: clusters plus noise give back exactly the input multiset. -/
theorem groupClusters_partition (prs : List (Pt × Int)) :
    groupPts (groupClusters prs) + (noisePts prs : Multiset Pt) =
      ((prs.map Prod.fst : List Pt) : Multiset Pt) := by
  rw [groupClusters, groupPts_foldl]
  show (0 : Multiset Pt) + _ + _ = _
  rw [zero_add]
  unfold noisePts
  have hperm : List.Perm
      (((prs.filter (fun pl => decide (pl.2 = -1))) ++
        (prs.filter (fun pl => !(decide (pl.2 = -1))))).map Prod.fst)
      (prs.map Prod.fst) :=
    (List.filter_append_perm _ prs).map Prod.fst
  rw [← Multiset.coe_eq_coe.mpr hperm, List.map_append, ← Multiset.coe_add]
  abel

/-- Summary dictionary returned by `generate_hotspots`. -/
structure Summary where
  hotspots_created : Nat
  total_reports : Nat
  clusters_found : Nat
deriving DecidableEq

/-- Storage state: the report coordinates and the stored hotspots
(cluster_id plus polygon ring), standing for the Django models. -/
structure DB where
  reports : List Pt
  hotspots : List (Int × List Pt)
deriving DecidableEq

/-- Squared clustering radius: `eps = 0.01` in `DBSCAN(eps=0.01, min_samples=2)`. -/
def epsSq : ℚ := 1 / 10000

/-- The polygons derived from the current run's clusters. -/
def newHotspots (reports : List Pt) : List (Int × List Pt) :=
  (groupClusters (reports.zip (dbscanLabels reports epsSq 2))).map
    (fun g => (g.1, _as_polygon g.2))

/-- The `generate_hotspots` task (tasks.py lines 16-57) as a state
transformer: early return on empty reports (no deletion), otherwise cluster
with DBSCAN(eps=0.01, min_samples=2), delete all stored hotspots, create one
hotspot per cluster, and return the summary counts. -/
def generate_hotspots (db : DB) : DB × Summary :=
  if db.reports = [] then (db, ⟨0, 0, 0⟩)
  else
    let coords := db.reports
    let labels := dbscanLabels coords epsSq 2
    let gs := groupClusters (coords.zip labels)
    let hs := gs.map (fun g => (g.1, _as_polygon g.2))
    ({ reports := db.reports, hotspots := hs },
      ⟨hs.length, coords.length, gs.length⟩)

/-- Sequential hotspot creation with injected storage failures: the k-th
`Hotspot.objects.create` call raises when `fails k` is true.  The task runs
without a transaction, so creates committed before the failure stay
committed (Django autocommit). -/
def runCreates (fails : Nat → Bool) : Nat → List (Int × List Pt) →
    Except (List (Int × List Pt)) (List (Int × List Pt))
  | _, [] => .ok []
  | k, g :: t =>
    if fails k then .error []
    else
      match runCreates fails (k + 1) t with
      | .ok hs => .ok ((g.1, _as_polygon g.2) :: hs)
      | .error hs => .error ((g.1, _as_polygon g.2) :: hs)

/-- `generate_hotspots` under a storage-failure schedule: a create failure
propagates as a run failure; the deletion of the old hotspots and the
creates made before the failure remain committed. -/
def generate_hotspots_fallible (db : DB) (fails : Nat → Bool) :
    Except DB (DB × Summary) :=
  if db.reports = [] then .ok (db, ⟨0, 0, 0⟩)
  else
    match runCreates fails 0 (groupClusters (db.reports.zip (dbscanLabels db.reports epsSq 2))) with
    | .ok hs => .ok ({ reports := db.reports, hotspots := hs },
        ⟨hs.length, db.reports.length,
          (groupClusters (db.reports.zip (dbscanLabels db.reports epsSq 2))).length⟩)
    | .error hs => .error { reports := db.reports, hotspots := hs }

theorem runCreates_ok {fails : Nat → Bool} : ∀ {k : Nat} {gs hs : List (Int × List Pt)},
    runCreates fails k gs = .ok hs → hs = gs.map (fun g => (g.1, _as_polygon g.2)) := by
  intro k gs
  induction gs generalizing k with
  | nil =>
    intro hs h
    rw [runCreates] at h
    injection h with h
    rw [← h]
    rfl
  | cons g t ih =>
    intro hs h
    rw [runCreates] at h
    split at h
    · exact absurd h (by simp)
    · revert h
      split
      · rename_i hs' hrec
        intro h
        injection h with h
        rw [← h, ih hrec]
        rfl
      · intro h
        exact absurd h (by simp)

theorem runCreates_error {fails : Nat → Bool} : ∀ {k : Nat} {gs hs : List (Int × List Pt)},
    runCreates fails k gs = .error hs →
    ∃ n, hs = (gs.map (fun g => (g.1, _as_polygon g.2))).take n := by
  intro k gs
  induction gs generalizing k with
  | nil =>
    intro hs h
    rw [runCreates] at h
    exact absurd h (by simp)
  | cons g t ih =>
    intro hs h
    rw [runCreates] at h
    split at h
    · injection h with h
      exact ⟨0, by rw [← h]; rfl⟩
    · revert h
      split
      · intro h
        exact absurd h (by simp)
      · rename_i hs' hrec
        intro h
        injection h with h
        obtain ⟨n, hn⟩ := ih hrec
        exact ⟨n + 1, by rw [← h, hn]; rfl⟩

theorem runCreates_no_fail : ∀ (k : Nat) (gs : List (Int × List Pt)),
    runCreates (fun _ => false) k gs = .ok (gs.map (fun g => (g.1, _as_polygon g.2))) := by
  intro k gs
  induction gs generalizing k with
  | nil => rfl
  | cons g t ih =>
    rw [runCreates, if_neg (by simp), ih (k + 1)]
    rfl

/-- With no storage failures the fallible run agrees with the plain task. -/
theorem generate_hotspots_fallible_no_fail (db : DB) :
    generate_hotspots_fallible db (fun _ => false) = .ok (generate_hotspots db) := by
  unfold generate_hotspots_fallible generate_hotspots
  split
  · rfl
  · simp only [runCreates_no_fail]

theorem bboxMinX_le_bboxMaxX {pts : List Pt} (hne : pts ≠ []) :
    bboxMinX pts ≤ bboxMaxX pts := by
  match pts with
  | p :: ps =>
    exact le_trans (foldl_min_le Prod.fst ps p.1).1 (le_foldl_max Prod.fst ps p.1).1

theorem bboxMinY_le_bboxMaxY {pts : List Pt} (hne : pts ≠ []) :
    bboxMinY pts ≤ bboxMaxY pts := by
  match pts with
  | p :: ps =>
    exact le_trans (foldl_min_le Prod.snd ps p.2).1 (le_foldl_max Prod.snd ps p.2).1

/-- The bounding-box ring is (weakly) clockwise: every vertex is on or right
of every directed edge. -/
theorem bbox_cw {pts : List Pt} (hne : pts ≠ []) :
    ∀ e ∈ ringEdges (_bbox_polygon pts), ∀ w ∈ _bbox_polygon pts,
      cross e.1 e.2 w ≤ 0 := by
  have hx := bboxMinX_le_bboxMaxX hne
  have hy := bboxMinY_le_bboxMaxY hne
  rw [bbox_eq hne]
  intro e he w hw
  simp only [List.mem_cons, List.mem_singleton, List.not_mem_nil, or_false] at hw
  rcases hw with rfl | rfl | rfl | rfl | rfl
  · exact bbox_ring_cross (le_refl _) hx (le_refl _) hy e he
  · exact bbox_ring_cross (le_refl _) hx hy (le_refl _) e he
  · exact bbox_ring_cross hx (le_refl _) hy (le_refl _) e he
  · exact bbox_ring_cross hx (le_refl _) (le_refl _) hy e he
  · exact bbox_ring_cross (le_refl _) hx (le_refl _) hy e he

/-! ### The claims -/

/-- C1: for every input point sequence the clustering step assigns exactly
one label per point (the label list has the same length as the input), and
the multiset union of the materialized clusters' points plus the noise
points (label -1) is exactly the input multiset — no point lost or
duplicated. -/
theorem C1_labels_partition (pts : List Pt) :
    (dbscanLabels pts epsSq 2).length = pts.length ∧
    groupPts (groupClusters (pts.zip (dbscanLabels pts epsSq 2))) +
      ((noisePts (pts.zip (dbscanLabels pts epsSq 2)) : List Pt) : Multiset Pt) =
      ((pts : List Pt) : Multiset Pt) := by
  refine ⟨dbscanLabels_length .., ?_⟩
  have h := groupClusters_partition (pts.zip (dbscanLabels pts epsSq 2))
  rwa [List.map_fst_zip _ _ (le_of_eq (dbscanLabels_length pts epsSq 2).symm)] at h

/-- C2: the polygon returned by the polygon builder contains every point of
the (non-empty) cluster it was built from, boundary-inclusive, in both the
convex-hull branch and the bounding-rectangle branch. -/
theorem C2_polygon_contains (pts : List Pt) (hne : pts ≠ []) (q : Pt) (hq : q ∈ pts) :
    inConvexRing q (_as_polygon pts) :=
  asPolygon_contains hne hq

unseal Rat.add Rat.sub Rat.mul Rat.inv Rat.ofScientific in
theorem C2_witness :
    inConvexRing ((1 : ℚ), (1 : ℚ))
      (_as_polygon [((0 : ℚ), (0 : ℚ)), (4, 0), (0, 4), (1, 1)]) :=
  C2_polygon_contains _ (by decide) _ (by decide)

unseal Rat.add Rat.sub Rat.mul Rat.inv Rat.ofScientific in
/-- C3 counterexample: with an empty report set the task returns early
without deleting, so a previously stored hotspot survives the run and the
stored set differs from the polygons of the current (empty) run. -/
theorem C3_counterexample :
    (generate_hotspots ⟨[], [(99, [((5 : ℚ), (5 : ℚ))])]⟩).1.hotspots ≠
      newHotspots ([] : List Pt) := by
  decide

/-- C3 amended: after a run on a non-empty report set the stored hotspots
are exactly the polygons of the current run's clusters (none survive from
earlier runs); on the empty report set the task returns early and leaves the
previously stored hotspots untouched. -/
theorem C3_amended (db : DB) :
    (db.reports ≠ [] → (generate_hotspots db).1.hotspots = newHotspots db.reports) ∧
    (db.reports = [] → (generate_hotspots db).1 = db) := by
  constructor
  · intro h
    unfold generate_hotspots
    rw [if_neg h]
    rfl
  · intro h
    unfold generate_hotspots
    rw [if_pos h]

unseal Rat.add Rat.sub Rat.mul Rat.inv Rat.ofScientific in
theorem C3_witness :
    (generate_hotspots ⟨[((0 : ℚ), (0 : ℚ)), (0, 0)], [(99, [((5 : ℚ), (5 : ℚ))])]⟩).1.hotspots =
      newHotspots [((0 : ℚ), (0 : ℚ)), (0, 0)] :=
  (C3_amended ⟨[((0 : ℚ), (0 : ℚ)), (0, 0)], [(99, [((5 : ℚ), (5 : ℚ))])]⟩).1 (by decide)

/-- Concrete database for the atomicity counterexample: one stale hotspot
and two clusters of coincident report pairs. -/
def c4db : DB :=
  ⟨[((0 : ℚ), (0 : ℚ)), (0, 0), (1, 1), (1, 1)], [(99, [((5 : ℚ), (5 : ℚ))])]⟩

unseal Rat.add Rat.sub Rat.mul Rat.inv Rat.ofScientific in
/-- C4 counterexample: with a storage failure on the second create the run
fails in a state whose stored hotspots are neither the old stored set nor
the full new set — the delete plus creates are not atomic as a unit. -/
theorem C4_counterexample :
    generate_hotspots_fallible c4db (fun k => k == 1) =
      .error ⟨c4db.reports,
        [(0, [((0 : ℚ), (0 : ℚ)), (0, 0), (0, 0), (0, 0), (0, 0)])]⟩ ∧
    ([(0, [((0 : ℚ), (0 : ℚ)), (0, 0), (0, 0), (0, 0), (0, 0)])] :
        List (Int × List Pt)) ≠ c4db.hotspots ∧
    ([(0, [((0 : ℚ), (0 : ℚ)), (0, 0), (0, 0), (0, 0), (0, 0)])] :
        List (Int × List Pt)) ≠ newHotspots c4db.reports := by
  refine ⟨by rfl, by decide, by decide⟩

/-- C4 amended: if every storage operation succeeds, the new polygons fully
replace the old hotspots; if a create fails, the old hotspots have already
been deleted and exactly the polygons created before the failure are stored,
so the run can commit a partial replacement. -/
theorem C4_amended (db : DB) (fails : Nat → Bool) (h : db.reports ≠ []) :
    (∀ db' s, generate_hotspots_fallible db fails = .ok (db', s) →
      db'.hotspots = newHotspots db.reports) ∧
    (∀ s, generate_hotspots_fallible db fails = .error s →
      ∃ n, s.hotspots = (newHotspots db.reports).take n) := by
  unfold generate_hotspots_fallible
  rw [if_neg h]
  constructor
  · intro db' s hmatch
    revert hmatch
    match hrc : runCreates fails 0
        (groupClusters (db.reports.zip (dbscanLabels db.reports epsSq 2))) with
    | .ok hs =>
      intro hmatch
      injection hmatch with hmatch
      injection hmatch with hA hB
      rw [← hA]
      show hs = newHotspots db.reports
      rw [runCreates_ok hrc]
      rfl
    | .error hs =>
      intro hmatch
      exact absurd hmatch (by simp)
  · intro s hmatch
    revert hmatch
    match hrc : runCreates fails 0
        (groupClusters (db.reports.zip (dbscanLabels db.reports epsSq 2))) with
    | .ok hs =>
      intro hmatch
      exact absurd hmatch (by simp)
    | .error hs =>
      intro hmatch
      injection hmatch with hmatch
      rw [← hmatch]
      show ∃ n, hs = (newHotspots db.reports).take n
      obtain ⟨n, hn⟩ := runCreates_error hrc
      exact ⟨n, by rw [hn]; rfl⟩

unseal Rat.add Rat.sub Rat.mul Rat.inv Rat.ofScientific in
theorem C4_witness :
    ∃ n, ([(0, [((0 : ℚ), (0 : ℚ)), (0, 0), (0, 0), (0, 0), (0, 0)])] :
      List (Int × List Pt)) = (newHotspots c4db.reports).take n :=
  (C4_amended c4db (fun k => k == 1) (by decide)).2
    ⟨c4db.reports, [(0, [((0 : ℚ), (0 : ℚ)), (0, 0), (0, 0), (0, 0), (0, 0)])]⟩
    (by rfl)

/-- C5: a non-empty point set with fewer than 3 distinct points, or at least
3 points that are all coincident or collinear, gets the axis-aligned
bounding rectangle as a closed 5-vertex ring (degenerate rectangles
permitted). -/
theorem C5_degenerate_bbox (pts : List Pt) (hne : pts ≠ [])
    (h : pts.dedup.length < 3 ∨ AllCollinear pts) :
    _as_polygon pts = _bbox_polygon pts ∧
    (_as_polygon pts).length = 5 ∧
    (_as_polygon pts).head? = (_as_polygon pts).getLast? := by
  have hcol : pts.length < 3 ∨ AllCollinear pts := by
    rcases h with h | h
    · by_cases hl : pts.length < 3
      · exact Or.inl hl
      · exact Or.inr (allCollinear_of_dedup_short h)
    · exact Or.inr h
  have heq := asPolygon_eq_bbox_of_degenerate hne hcol
  rw [heq]
  exact ⟨rfl, bbox_length hne, bbox_closed hne⟩

unseal Rat.add Rat.sub Rat.mul Rat.inv Rat.ofScientific in
theorem C5_witness :
    _as_polygon [((0 : ℚ), (0 : ℚ)), (1, 1), (2, 2)] =
      _bbox_polygon [((0 : ℚ), (0 : ℚ)), (1, 1), (2, 2)] ∧
    (_as_polygon [((0 : ℚ), (0 : ℚ)), (1, 1), (2, 2)]).length = 5 ∧
    (_as_polygon [((0 : ℚ), (0 : ℚ)), (1, 1), (2, 2)]).head? =
      (_as_polygon [((0 : ℚ), (0 : ℚ)), (1, 1), (2, 2)]).getLast? :=
  C5_degenerate_bbox _ (by decide) (Or.inr (by decide))

unseal Rat.add Rat.sub Rat.mul Rat.inv Rat.ofScientific in
/-- C6 counterexample: for the collinear cluster (0,0), (1,1), (2,2) the
builder falls back to the bounding rectangle, whose ring is emitted
clockwise, so the returned polygon is closed but not counter-clockwise. -/
theorem C6_counterexample :
    ¬ ((_as_polygon [((0 : ℚ), (0 : ℚ)), (1, 1), (2, 2)]).head? =
        (_as_polygon [((0 : ℚ), (0 : ℚ)), (1, 1), (2, 2)]).getLast? ∧
      ringCCW (_as_polygon [((0 : ℚ), (0 : ℚ)), (1, 1), (2, 2)])) := by
  decide

/-- C6 amended: the ring returned by the polygon builder is always closed
(first vertex equals last); when the convex-hull branch is taken the ring is
counter-clockwise, while the bounding-rectangle fallback emits its ring
(weakly) clockwise. -/
theorem C6_amended (pts : List Pt) (hne : pts ≠ []) :
    (_as_polygon pts).head? = (_as_polygon pts).getLast? ∧
    (¬ bboxTaken pts → ringCCW (_as_polygon pts)) ∧
    (bboxTaken pts → ∀ e ∈ ringEdges (_as_polygon pts), ∀ w ∈ _as_polygon pts,
      cross e.1 e.2 w ≤ 0) := by
  refine ⟨asPolygon_closed hne, asPolygon_ccw_of_hull hne, ?_⟩
  intro h
  rw [asPolygon_eq_bbox_of_bboxTaken h]
  exact bbox_cw hne

unseal Rat.add Rat.sub Rat.mul Rat.inv Rat.ofScientific in
theorem C6_witness :
    ringCCW (_as_polygon [((0 : ℚ), (0 : ℚ)), (3, 0), (0, 3)]) :=
  (C6_amended [((0 : ℚ), (0 : ℚ)), (3, 0), (0, 3)] (by decide)).2.1 (by decide)

unseal Rat.add Rat.sub Rat.mul Rat.inv Rat.ofScientific in
/-- C7 counterexample: a cluster of two points with equal x produces a
degenerate bounding rectangle whose ring repeats consecutive vertices
beyond the closing repeat. -/
theorem C7_counterexample :
    ¬ noConsecDup (_as_polygon [((0 : ℚ), (0 : ℚ)), (0, 1)]) := by
  decide

/-- C7 amended: the returned ring has no duplicate consecutive vertices
other than the closing repeat, except when the bounding-rectangle fallback
produces a degenerate rectangle (zero width or height), whose ring does
repeat vertices; i.e. the property holds in the hull branch and in the
non-degenerate bounding-box branch. -/
theorem C7_amended (pts : List Pt) (hne : pts ≠ [])
    (hdeg : bboxTaken pts → bboxMinX pts < bboxMaxX pts ∧ bboxMinY pts < bboxMaxY pts) :
    noConsecDup (_as_polygon pts) :=
  asPolygon_noConsecDup hne hdeg

unseal Rat.add Rat.sub Rat.mul Rat.inv Rat.ofScientific in
theorem C7_witness :
    noConsecDup (_as_polygon [((0 : ℚ), (0 : ℚ)), (2, 3)]) :=
  C7_amended _ (by decide) (by decide)

/-- C8: the empty report set is not an error: the task returns the zero
summary, leaves the state as is, and the engine produces zero labels, zero
clusters and zero polygons. -/
theorem C8_empty_run (db : DB) (h : db.reports = []) :
    generate_hotspots db = (db, ⟨0, 0, 0⟩) ∧
    dbscanLabels db.reports epsSq 2 = [] ∧
    groupClusters (db.reports.zip (dbscanLabels db.reports epsSq 2)) = [] ∧
    newHotspots db.reports = [] := by
  refine ⟨by unfold generate_hotspots; rw [if_pos h], ?_, ?_, ?_⟩ <;> rw [h] <;> rfl

theorem C8_witness :
    generate_hotspots ⟨[], [(99, [((5 : ℚ), (5 : ℚ))])]⟩ =
      (⟨[], [(99, [((5 : ℚ), (5 : ℚ))])]⟩, ⟨0, 0, 0⟩) ∧
    dbscanLabels (DB.reports ⟨[], [(99, [((5 : ℚ), (5 : ℚ))])]⟩) epsSq 2 = [] ∧
    groupClusters ((DB.reports ⟨[], [(99, [((5 : ℚ), (5 : ℚ))])]⟩).zip
      (dbscanLabels (DB.reports ⟨[], [(99, [((5 : ℚ), (5 : ℚ))])]⟩) epsSq 2)) = [] ∧
    newHotspots (DB.reports ⟨[], [(99, [((5 : ℚ), (5 : ℚ))])]⟩) = [] :=
  C8_empty_run ⟨[], [(99, [((5 : ℚ), (5 : ℚ))])]⟩ rfl

/-- C9: the clustering step and the run's derived outputs are deterministic:
two runs over the same report sequence (whatever hotspots were stored
before) produce identical label sequences, identical cluster groupings and
identical summaries. -/
theorem C9_deterministic (db₁ db₂ : DB) (h : db₁.reports = db₂.reports) :
    dbscanLabels db₁.reports epsSq 2 = dbscanLabels db₂.reports epsSq 2 ∧
    groupClusters (db₁.reports.zip (dbscanLabels db₁.reports epsSq 2)) =
      groupClusters (db₂.reports.zip (dbscanLabels db₂.reports epsSq 2)) ∧
    (generate_hotspots db₁).2 = (generate_hotspots db₂).2 := by
  refine ⟨by rw [h], by rw [h], ?_⟩
  unfold generate_hotspots
  by_cases he : db₂.reports = []
  · rw [h, if_pos he, if_pos he]
  · rw [h, if_neg he, if_neg he]

theorem C9_witness :
    dbscanLabels (DB.reports ⟨[((0 : ℚ), (0 : ℚ)), (0, 0)], []⟩) epsSq 2 =
      dbscanLabels (DB.reports ⟨[((0 : ℚ), (0 : ℚ)), (0, 0)], [(7, [((1 : ℚ), (2 : ℚ))])]⟩) epsSq 2 ∧
    groupClusters ((DB.reports ⟨[((0 : ℚ), (0 : ℚ)), (0, 0)], []⟩).zip
        (dbscanLabels (DB.reports ⟨[((0 : ℚ), (0 : ℚ)), (0, 0)], []⟩) epsSq 2)) =
      groupClusters ((DB.reports ⟨[((0 : ℚ), (0 : ℚ)), (0, 0)], [(7, [((1 : ℚ), (2 : ℚ))])]⟩).zip
        (dbscanLabels (DB.reports ⟨[((0 : ℚ), (0 : ℚ)), (0, 0)],
          [(7, [((1 : ℚ), (2 : ℚ))])]⟩) epsSq 2)) ∧
    (generate_hotspots ⟨[((0 : ℚ), (0 : ℚ)), (0, 0)], []⟩).2 =
      (generate_hotspots ⟨[((0 : ℚ), (0 : ℚ)), (0, 0)], [(7, [((1 : ℚ), (2 : ℚ))])]⟩).2 :=
  C9_deterministic ⟨[((0 : ℚ), (0 : ℚ)), (0, 0)], []⟩
    ⟨[((0 : ℚ), (0 : ℚ)), (0, 0)], [(7, [((1 : ℚ), (2 : ℚ))])]⟩ rfl

/-- C10: in every non-empty run's summary, hotspots_created equals
clusters_found (one polygon stored per distinct non-noise label, and the
stored hotspot list has that length) and total_reports equals the number of
input points. -/
theorem C10_summary_counts (db : DB) (h : db.reports ≠ []) :
    (generate_hotspots db).2.hotspots_created = (generate_hotspots db).2.clusters_found ∧
    (generate_hotspots db).2.total_reports = db.reports.length ∧
    (generate_hotspots db).1.hotspots.length = (generate_hotspots db).2.clusters_found := by
  unfold generate_hotspots
  rw [if_neg h]
  refine ⟨?_, rfl, ?_⟩ <;> simp

unseal Rat.add Rat.sub Rat.mul Rat.inv Rat.ofScientific in
theorem C10_witness :
    (generate_hotspots ⟨[((0 : ℚ), (0 : ℚ)), (0, 0), (1, 1), (1, 1)], []⟩).2.hotspots_created =
      (generate_hotspots ⟨[((0 : ℚ), (0 : ℚ)), (0, 0), (1, 1), (1, 1)], []⟩).2.clusters_found ∧
    (generate_hotspots ⟨[((0 : ℚ), (0 : ℚ)), (0, 0), (1, 1), (1, 1)], []⟩).2.total_reports =
      (DB.reports ⟨[((0 : ℚ), (0 : ℚ)), (0, 0), (1, 1), (1, 1)], []⟩).length ∧
    (generate_hotspots ⟨[((0 : ℚ), (0 : ℚ)), (0, 0), (1, 1), (1, 1)], []⟩).1.hotspots.length =
      (generate_hotspots ⟨[((0 : ℚ), (0 : ℚ)), (0, 0), (1, 1), (1, 1)], []⟩).2.clusters_found :=
  C10_summary_counts ⟨[((0 : ℚ), (0 : ℚ)), (0, 0), (1, 1), (1, 1)], []⟩ (by decide)

end CivicView
